import Mathlib

/-!
Verification of the core matching engine of the `zapppppixv.3` spot exchange
(`src/trading_engine.py`, schema in `src/database.py`).

The embedding is shallow: the relational store is a record of lists kept in
insertion order, Python `int` is `Int`, SQL `NULL` prices are `Option Int`.
The matching queries end in `ORDER BY price` with no secondary sort key, so
the database fixes only the price order of the returned rows; the relative
order of equal-priced rows is unspecified.  The model makes that explicit:
every operation that runs such a query takes the rows of the orders table in
an arbitrary scan order (`rows`, a permutation of the stored list,
existentially quantified in the step relation), and the insertion sort
applied to them keeps equal-priced rows in scan order — ranging over all
permutations therefore realizes exactly the price-sorted row orders the SQL
may return.  The `uuid` of an order and its creation timestamp are both
abstracted as the creation sequence number `id : Nat` drawn from `nextTs`.
Each emitted transaction also records the id of the resting (maker) order it
filled; the source identifies the maker implicitly as the loop variable, and
the extra field is only used to state properties about which order was
matched.
-/

abbrev UserId := String
abbrev Ticker := String

inductive Direction where
  | BUY
  | SELL
deriving DecidableEq, Repr

inductive OrderType where
  | LIMIT
  | MARKET
deriving DecidableEq, Repr

inductive OrderStatus where
  | NEW
  | PARTIALLY_EXECUTED
  | EXECUTED
  | CANCELLED
deriving DecidableEq, Repr

/-- A row of the `orders` table (`Order` in `src/database.py`). -/
structure Order where
  id : Nat
  user_id : UserId
  ticker : Ticker
  direction : Direction
  qty : Int
  price : Option Int
  order_type : OrderType
  status : OrderStatus
  filled : Int
deriving DecidableEq, Repr

/-- A row of the `balances` table (`Balance` in `src/database.py`). -/
structure BalanceRow where
  user_id : UserId
  ticker : Ticker
  amount : Int
deriving DecidableEq, Repr

/-- A row of the `transactions` table (`Transaction` in `src/database.py`),
with the ghost field `maker_id` recording which resting order was filled. -/
structure Transaction where
  ticker : Ticker
  amount : Int
  price : Int
  buyer_id : UserId
  seller_id : UserId
  maker_id : Nat
deriving DecidableEq, Repr

/-- The persistent store seen by one engine session. -/
structure EngineState where
  instruments : List Ticker
  orders : List Order
  balances : List BalanceRow
  transactions : List Transaction
  nextTs : Nat
deriving DecidableEq, Repr

/-- The body of a `POST /order` request: `LimitOrderBody` has a price,
`MarketOrderBody` does not. -/
inductive OrderBody where
  | limit (ticker : Ticker) (direction : Direction) (qty : Int) (price : Int)
  | market (ticker : Ticker) (direction : Direction) (qty : Int)
deriving DecidableEq, Repr

def OrderBody.ticker : OrderBody → Ticker
  | .limit t _ _ _ => t
  | .market t _ _ => t

def OrderBody.direction : OrderBody → Direction
  | .limit _ d _ _ => d
  | .market _ d _ => d

def OrderBody.qty : OrderBody → Int
  | .limit _ _ q _ => q
  | .market _ _ q => q

/-- Modelled from the spec: `schemas.py` is not part of the engine sources;
per §4.4 admission rule 1 it validates `qty > 0` and, for LIMIT, `price > 0`
before `create_order` is reached. -/
def validBody : OrderBody → Prop
  | .limit _ _ q p => 1 ≤ q ∧ 1 ≤ p
  | .market _ _ q => 1 ≤ q

inductive AdmissionError where
  | InstrumentNotFound
  | InsufficientFunds
  | InsufficientAsset
deriving DecidableEq, Repr

def oppositeOf : Direction → Direction
  | .BUY => .SELL
  | .SELL => .BUY

/-- `getattr(order_data, 'price', 0) or 1` in `create_order`. -/
def bodyPriceOr1 : OrderBody → Int
  | .limit _ _ _ p => if p = 0 then 1 else p
  | .market _ _ _ => 1

/-- The price stored on the new order row: `getattr(order_data, 'price', None)`. -/
def bodyPriceOpt : OrderBody → Option Int
  | .limit _ _ _ p => some p
  | .market _ _ _ => none

def bodyType : OrderBody → OrderType
  | .limit _ _ _ _ => .LIMIT
  | .market _ _ _ => .MARKET

/-- First `balances` row for `(user, ticker)`, as the `.first()` queries do. -/
def userBalRow (s : EngineState) (u : UserId) (t : Ticker) : Option BalanceRow :=
  s.balances.find? fun b => decide (b.user_id = u ∧ b.ticker = t)

/-- `if not row or row.amount < required: raise e`. -/
def fundsCheckRow : Option BalanceRow → Int → AdmissionError → Option AdmissionError
  | none, _, e => some e
  | some b, required, e => if b.amount < required then some e else none

/-- The admission checks of `TradingEngine.create_order` (lines 25-39):
instrument lookup, then the funds / asset check.  Errors are the `ValueError`
raises, classified per the spec's taxonomy. -/
def admitCheck (s : EngineState) (u : UserId) (body : OrderBody) : Option AdmissionError :=
  if ¬ body.ticker ∈ s.instruments then some .InstrumentNotFound
  else if body.direction = .BUY then
    fundsCheckRow (userBalRow s u "RUB") (body.qty * bodyPriceOr1 body) .InsufficientFunds
  else
    fundsCheckRow (userBalRow s u body.ticker) body.qty .InsufficientAsset

/-- The `INSERT ... ON CONFLICT (user_id, ticker) DO UPDATE` upsert of
`_upsert_balance_with_retry`: bump the (unique) matching row, else insert. -/
def upsertBalance (bals : List BalanceRow) (u : UserId) (t : Ticker) (d : Int) :
    List BalanceRow :=
  match bals with
  | [] => [{ user_id := u, ticker := t, amount := d }]
  | b :: rest =>
    if b.user_id = u ∧ b.ticker = t then { b with amount := b.amount + d } :: rest
    else b :: upsertBalance rest u t d

/-- The `update_balance` helper of `_update_balances_after_trade`: a Python
dict accumulating deltas keyed by `(user_id, ticker)`, insertion-ordered. -/
def addChange (changes : List ((UserId × Ticker) × Int)) (key : UserId × Ticker) (d : Int) :
    List ((UserId × Ticker) × Int) :=
  match changes with
  | [] => [(key, d)]
  | c :: rest => if c.1 = key then (c.1, c.2 + d) :: rest else c :: addChange rest key d

/-- The four recorded deltas of `_update_balances_after_trade` (lines 202-205). -/
def tradeChanges (buyer seller : UserId) (ticker : Ticker) (qty price : Int) :
    List ((UserId × Ticker) × Int) :=
  addChange (addChange (addChange (addChange [] (buyer, ticker) qty)
    (buyer, "RUB") (-(qty * price))) (seller, ticker) (-qty)) (seller, "RUB") (qty * price)

/-- Lexicographic code-point comparison of character lists, as Python
compares strings. -/
def strLtB : List Char → List Char → Bool
  | [], [] => false
  | [], _ :: _ => true
  | _ :: _, [] => false
  | a :: as, b :: bs =>
    if a.toNat < b.toNat then true
    else if b.toNat < a.toNat then false
    else strLtB as bs

def strLt (a b : String) : Bool := strLtB a.data b.data

/-- `sorted(..., key=lambda x: (str(x[0][0]), x[0][1]))`: lexicographic order
on the key tuple; Python's sort is stable. -/
def keyBefore (a b : (UserId × Ticker) × Int) : Bool :=
  strLt a.1.1 b.1.1 || (a.1.1 == b.1.1 && strLt a.1.2 b.1.2)

def insertChange (c : (UserId × Ticker) × Int) :
    List ((UserId × Ticker) × Int) → List ((UserId × Ticker) × Int)
  | [] => [c]
  | x :: xs => if keyBefore x c then x :: insertChange c xs else c :: x :: xs

def sortChanges : List ((UserId × Ticker) × Int) → List ((UserId × Ticker) × Int)
  | [] => []
  | c :: rest => insertChange c (sortChanges rest)

/-- The upsert loop at the end of `_update_balances_after_trade`: zero deltas
are skipped, the rest are applied. -/
def applyChanges (bals : List BalanceRow) (changes : List ((UserId × Ticker) × Int)) :
    List BalanceRow :=
  changes.foldl (fun bs c => if c.2 = 0 then bs else upsertBalance bs c.1.1 c.1.2 c.2) bals

/-- `TradingEngine._update_balances_after_trade` (lines 184-217). -/
def updateBalancesAfterTrade (order1 order2 : Order) (qty price : Int)
    (bals : List BalanceRow) : List BalanceRow :=
  let buyer := if order1.direction = .BUY then order1.user_id else order2.user_id
  let seller := if order1.direction = .SELL then order1.user_id else order2.user_id
  applyChanges bals (sortChanges (tradeChanges buyer seller order1.ticker qty price))

def priceKey (o : Order) : Int := o.price.getD 0

/-- Comparator of the matching queries: `price.asc()` when the incoming order
buys, `price.desc()` when it sells. -/
def priceBefore (d : Direction) (a b : Order) : Bool :=
  match d with
  | .BUY => decide (priceKey a < priceKey b)
  | .SELL => decide (priceKey b < priceKey a)

/-- Insertion step of the sort modelling `ORDER BY price`: `a` goes before
the first element not strictly before it, so rows comparing equal keep their
relative order in the input.  The input below is an arbitrary scan order of
the table, matching SQL, which fixes only the price order. -/
def insertOrd (lt : Order → Order → Bool) (a : Order) : List Order → List Order
  | [] => [a]
  | x :: xs => if lt x a then x :: insertOrd lt a xs else a :: x :: xs

def sortOrders (lt : Order → Order → Bool) : List Order → List Order
  | [] => []
  | a :: l => insertOrd lt a (sortOrders lt l)

/-- SQL comparison of a possibly-NULL resting price against the incoming
limit price: NULL never compares true. -/
def optCrossB : Direction → Option Int → Option Int → Bool
  | .BUY, some p, some q => decide (p ≤ q)
  | .SELL, some p, some q => decide (q ≤ p)
  | _, _, _ => false

/-- The opposite-book query of `_execute_market_order` (lines 71-78):
same ticker, opposite direction, resting status, `order_type == LIMIT`,
`ORDER BY price` (best first for the incoming direction).  `orders` is the
table in an arbitrary scan order: the SQL has no secondary sort key, so the
order of equal-priced rows is whatever the database yields, and sorting an
arbitrary permutation stably by price realizes exactly those outcomes. -/
def marketCandidates (orders : List Order) (order : Order) : List Order :=
  sortOrders (priceBefore order.direction)
    (orders.filter fun o => decide (o.ticker = order.ticker ∧
      o.direction = oppositeOf order.direction ∧
      (o.status = .NEW ∨ o.status = .PARTIALLY_EXECUTED) ∧
      o.order_type = .LIMIT))

/-- The opposite-book query of `_try_execute_limit_order` (lines 128-143):
note the source has no `order_type` filter here; the price comparison
(`price <= order.price` resp. `>=`) excludes NULL-priced rows instead.
As above, `orders` is the table in an arbitrary scan order and the
`ORDER BY price` has no secondary key, so equal-priced rows come back in an
order the database does not specify. -/
def limitCandidates (orders : List Order) (order : Order) : List Order :=
  sortOrders (priceBefore order.direction)
    (orders.filter fun o => decide (o.ticker = order.ticker ∧
      o.direction = oppositeOf order.direction ∧
      (o.status = .NEW ∨ o.status = .PARTIALLY_EXECUTED)) &&
      optCrossB order.direction o.price order.price)

/-- Result of one matching pass. -/
structure MatchResult where
  taker : Order
  remaining : Int
  makers : List Order
  trades : List Transaction
  balances : List BalanceRow
deriving DecidableEq, Repr

/-- `order.filled += execute_qty` on the incoming order. -/
def fillTaker (taker : Order) (e : Int) : Order :=
  { taker with filled := taker.filled + e }

/-- `opposite_order.filled += execute_qty` plus the status update
(`EXECUTED` when full, else `PARTIALLY_EXECUTED`). -/
def fillMaker (opp : Order) (e : Int) : Order :=
  { opp with
      filled := opp.filled + e
      status :=
        if opp.qty ≤ opp.filled + e then OrderStatus.EXECUTED
        else OrderStatus.PARTIALLY_EXECUTED }

/-- The `TransactionDB` row written for one fill: executed quantity at the
resting order's price. -/
def fillTx (taker opp : Order) (e : Int) : Transaction :=
  { ticker := taker.ticker
    amount := e
    price := priceKey opp
    buyer_id := if taker.direction = .BUY then taker.user_id else opp.user_id
    seller_id := if taker.direction = .SELL then taker.user_id else opp.user_id
    maker_id := opp.id }

/-- Prepend the processed maker (and its trade) to the rest of the pass. -/
def matchCons (tx : Transaction) (opp1 : Order) (r : MatchResult) : MatchResult :=
  ⟨r.taker, r.remaining, opp1 :: r.makers, tx :: r.trades, r.balances⟩

/-- Prepend an untouched maker to the rest of the pass. -/
def matchSkip (opp : Order) (r : MatchResult) : MatchResult :=
  ⟨r.taker, r.remaining, opp :: r.makers, r.trades, r.balances⟩

/-- The shared body of the matching loops (`_execute_market_order` lines
80-113, `_try_execute_limit_order` lines 145-175): walk the candidates,
fill `min(remaining, available)`, record the trade at the resting order's
price, update both orders and the balances, stop when nothing remains. -/
def matchLoop (taker : Order) (remaining : Int) (bals : List BalanceRow) :
    List Order → MatchResult
  | [] => ⟨taker, remaining, [], [], bals⟩
  | opp :: rest =>
    if remaining ≤ 0 then ⟨taker, remaining, opp :: rest, [], bals⟩
    else
      let execQty := min remaining (opp.qty - opp.filled)
      if 0 < execQty then
        matchCons (fillTx taker opp execQty) (fillMaker opp execQty)
          (matchLoop (fillTaker taker execQty) (remaining - execQty)
            (updateBalancesAfterTrade (fillTaker taker execQty) (fillMaker opp execQty)
              execQty (priceKey opp) bals) rest)
      else
        matchSkip opp (matchLoop taker remaining bals rest)

/-- Final status assignment after the pass: `_execute_market_order` lines
115-122 (`CANCELLED` when nothing filled), `_try_execute_limit_order` lines
177-182 (stays `NEW` when nothing filled). -/
def finalizeStatus (ot : OrderType) (t : Order) : Order :=
  if t.qty ≤ t.filled then { t with status := .EXECUTED }
  else if 0 < t.filled then { t with status := .PARTIALLY_EXECUTED }
  else if ot = .MARKET then { t with status := .CANCELLED }
  else t

def candidatesFor (orders : List Order) (order : Order) : List Order :=
  if order.order_type = .MARKET then marketCandidates orders order
  else limitCandidates orders order

/-- Write the mutated resting rows back over the orders table (the ORM keeps
one row per id; `applyUpdates` replaces each row by its updated version). -/
def applyUpdates (orders upd : List Order) : List Order :=
  orders.map fun o => ((upd.find? fun u => decide (u.id = o.id)).getD o)

/-- The order row materialized by `create_order` (lines 44-54). -/
def newOrderOf (s : EngineState) (u : UserId) (body : OrderBody) : Order :=
  { id := s.nextTs, user_id := u, ticker := body.ticker, direction := body.direction,
    qty := body.qty, price := bodyPriceOpt body, order_type := bodyType body,
    status := .NEW, filled := 0 }

/-- Matching plus the single commit of `create_order`: run the pass over the
candidate query's result — built from `rows`, the orders table in an
arbitrary scan order — set the final status, persist the updated book rows,
the new order, the trades and the balances. -/
def processOrder (s : EngineState) (rows : List Order) (order : Order) : EngineState :=
  let r := matchLoop order order.qty s.balances (candidatesFor rows order)
  let fin := finalizeStatus order.order_type r.taker
  { s with orders := applyUpdates s.orders r.makers ++ [fin],
           balances := r.balances,
           transactions := s.transactions ++ r.trades,
           nextTs := s.nextTs + 1 }

/-- `TradingEngine.create_order` (lines 22-65).  Admission errors are raised
before anything is added to the session, so the state is returned unchanged
on failure.  `rows` is the orders table in the scan order the database
happens to use for this call's matching query; the admission checks do not
read it. -/
def create_order (s : EngineState) (rows : List Order) (u : UserId) (body : OrderBody) :
    Except AdmissionError Nat × EngineState :=
  match admitCheck s u body with
  | some e => (.error e, s)
  | none => (.ok s.nextTs, processOrder s rows (newOrderOf s u body))

/-- The filter of `cancel_order`'s query: same id, same owner, still open. -/
def cancelPred (order_id : Nat) (u : UserId) (o : Order) : Prop :=
  o.id = order_id ∧ o.user_id = u ∧ (o.status = .NEW ∨ o.status = .PARTIALLY_EXECUTED)

instance (order_id : Nat) (u : UserId) (o : Order) : Decidable (cancelPred order_id u o) :=
  inferInstanceAs (Decidable (_ ∧ _ ∧ (_ ∨ _)))

/-- Second half of `cancel_order`: not found returns `False`; found flips the
(unique) matching row to `CANCELLED` and commits. -/
def cancelResult (s : EngineState) (order_id : Nat) (u : UserId) :
    Option Order → Bool × EngineState
  | none => (false, s)
  | some _ =>
    (true,
      { s with
          orders := s.orders.map fun o =>
            if cancelPred order_id u o then { o with status := .CANCELLED } else o })

/-- `TradingEngine.cancel_order` (lines 251-264). -/
def cancel_order (s : EngineState) (order_id : Nat) (u : UserId) : Bool × EngineState :=
  cancelResult s order_id u (s.orders.find? fun o => decide (cancelPred order_id u o))

/-- One committed engine operation: an accepted (schema-valid) submission —
over whichever scan order `rows` the database served the matching query —
or a cancel request. -/
inductive Step : EngineState → EngineState → Prop
  | submit (s : EngineState) (rows : List Order) (u : UserId) (body : OrderBody)
      (oid : Nat) (s' : EngineState) :
      validBody body → List.Perm rows s.orders →
      create_order s rows u body = (.ok oid, s') → Step s s'
  | cancel (s : EngineState) (oid : Nat) (u : UserId) (b : Bool) (s' : EngineState) :
      cancel_order s oid u = (b, s') → Step s s'

def Reachable : EngineState → EngineState → Prop := Relation.ReflTransGen Step

/-- A freshly provisioned exchange: instruments and (non-negative, deposited)
balances exist, no orders or trades yet. -/
def initState (s : EngineState) : Prop :=
  s.orders = [] ∧ s.transactions = [] ∧ ∀ b ∈ s.balances, 0 ≤ b.amount

/-- Spec-side view of a committed balance: the row's amount, `0` when the row
was never created. -/
def specBalance (s : EngineState) (u : UserId) (t : Ticker) : Int :=
  match userBalRow s u t with
  | none => 0
  | some b => b.amount

/-- Modelled from the spec: required RUB for a BUY is `qty · price` for LIMIT
and `qty · 1` as a conservative floor for MARKET (§4.4 admission rule 3). -/
def requiredRub : OrderBody → Int
  | .limit _ _ q p => q * p
  | .market _ _ q => q * 1

/-- Total committed amount of one ticker across all users. -/
def tickerSum (bals : List BalanceRow) (t : Ticker) : Int :=
  (bals.map fun b => if b.ticker = t then b.amount else 0).sum

/-- Total delta a change set applies to one ticker. -/
def changesSum (l : List ((UserId × Ticker) × Int)) (t : Ticker) : Int :=
  (l.map fun c => if c.1.2 = t then c.2 else 0).sum

/-- `a` has strictly better price than `b` for an order of direction `d`
matching against them: lower for asks (BUY), higher for bids (SELL). -/
def priceLt (d : Direction) (a b : Order) : Prop :=
  match d with
  | .BUY => priceKey a < priceKey b
  | .SELL => priceKey b < priceKey a

/-- Price-time priority of resting orders against an incoming order of
direction `d`: strictly better price, or equal price and earlier insertion. -/
def priOrd (d : Direction) (a b : Order) : Prop :=
  priceLt d a b ∨ (priceKey a = priceKey b ∧ a.id < b.id)

/-- Per-row well-formedness of a committed order (spec invariants I-O1..I-O4
plus the LIMIT/MARKET price discipline). -/
def OrderOK (o : Order) : Prop :=
  0 ≤ o.filled ∧ o.filled ≤ o.qty ∧ 0 < o.qty ∧
  (o.status = .EXECUTED ↔ o.filled = o.qty) ∧
  (o.status = .NEW → o.filled = 0) ∧
  (match o.order_type with
   | .MARKET => o.price = none
   | .LIMIT => ∃ p, o.price = some p ∧ 0 < p)

/-- Well-formedness of a committed state: row invariants, ids strictly
increasing along insertion order and below the id counter, and every trade's
maker being a LIMIT order of the book. -/
def WF (s : EngineState) : Prop :=
  (∀ o ∈ s.orders, OrderOK o) ∧
  s.orders.Pairwise (fun a b => a.id < b.id) ∧
  (∀ o ∈ s.orders, o.id < s.nextTs) ∧
  (∀ tx ∈ s.transactions, ∃ o ∈ s.orders, o.id = tx.maker_id ∧ o.order_type = .LIMIT)

/-! Concrete states used by counterexamples and witnesses. -/

/-- Two users, seller `S` holding one share, buyer `B` holding 1 RUB. -/
def cS0 : EngineState :=
  { instruments := ["RUB", "AAPL"], orders := [], transactions := [],
    balances := [⟨"S", "AAPL", 1⟩, ⟨"B", "RUB", 1⟩], nextTs := 0 }

def cSellBody : OrderBody := .limit "AAPL" .SELL 1 100

def cMktBody : OrderBody := .market "AAPL" .BUY 1

def cS1 : EngineState := (create_order cS0 cS0.orders "S" cSellBody).2

def cS2 : EngineState := (create_order cS1 cS1.orders "B" cMktBody).2

/-- Buyer `A` with 1000 RUB, seller `B` with 10 shares. -/
def wS0 : EngineState :=
  { instruments := ["RUB", "AAPL"], orders := [], transactions := [],
    balances := [⟨"A", "RUB", 1000⟩, ⟨"B", "AAPL", 10⟩], nextTs := 0 }

def wSell1 : OrderBody := .limit "AAPL" .SELL 2 100

def wSell2 : OrderBody := .limit "AAPL" .SELL 5 100

def wBuy : OrderBody := .limit "AAPL" .BUY 3 100

def wS1 : EngineState := (create_order wS0 wS0.orders "B" wSell1).2

def wS2 : EngineState := (create_order wS1 wS1.orders "B" wSell2).2

def wS3 : EngineState := (create_order wS2 wS2.orders "A" wBuy).2

def wMkt : OrderBody := .market "AAPL" .BUY 1

def wS4 : EngineState := (create_order wS2 wS2.orders "A" wMkt).2

/-- The two resting sell rows of `wS2`, in insertion order. -/
def wOrd0 : Order :=
  { id := 0, user_id := "B", ticker := "AAPL", direction := .SELL, qty := 2,
    price := some 100, order_type := .LIMIT, status := .NEW, filled := 0 }

def wOrd1 : Order :=
  { id := 1, user_id := "B", ticker := "AAPL", direction := .SELL, qty := 5,
    price := some 100, order_type := .LIMIT, status := .NEW, filled := 0 }

/-- The orders table of `wS2` in reverse scan order — equally admissible for
the matching query, since both rows carry the same price and `ORDER BY
price` has no secondary key. -/
def wRevRows : List Order := [wOrd1, wOrd0]

/-- Submitting the buy of `wS3` while the database serves the equal-priced
rows in reverse order: the later sell (id 1) is matched first. -/
def wS3r : EngineState := (create_order wS2 wRevRows "A" wBuy).2

/-- A second sell at a strictly worse price, for the price-priority witness. -/
def vSell2 : OrderBody := .limit "AAPL" .SELL 5 101

def vBuy : OrderBody := .limit "AAPL" .BUY 3 101

def vS2 : EngineState := (create_order wS1 wS1.orders "B" vSell2).2

def vS3 : EngineState := (create_order vS2 vS2.orders "A" vBuy).2

instance : (body : OrderBody) → Decidable (validBody body)
  | .limit _ _ q p => inferInstanceAs (Decidable (1 ≤ q ∧ 1 ≤ p))
  | .market _ _ q => inferInstanceAs (Decidable (1 ≤ q))

instance (s : EngineState) : Decidable (initState s) :=
  inferInstanceAs (Decidable (s.orders = [] ∧ s.transactions = [] ∧ ∀ b ∈ s.balances, 0 ≤ b.amount))

/-! ### Matching loop unfolding equations -/

theorem matchLoop_nil (taker : Order) (remaining : Int) (bals : List BalanceRow) :
    matchLoop taker remaining bals [] = ⟨taker, remaining, [], [], bals⟩ := rfl

theorem matchLoop_stop (taker : Order) (remaining : Int) (bals : List BalanceRow)
    (opp : Order) (rest : List Order) (h : remaining ≤ 0) :
    matchLoop taker remaining bals (opp :: rest) = ⟨taker, remaining, opp :: rest, [], bals⟩ := by
  simp [matchLoop, h]

theorem matchLoop_fill (taker : Order) (remaining : Int) (bals : List BalanceRow)
    (opp : Order) (rest : List Order) (h : ¬ remaining ≤ 0)
    (h2 : 0 < min remaining (opp.qty - opp.filled)) :
    matchLoop taker remaining bals (opp :: rest) =
      matchCons (fillTx taker opp (min remaining (opp.qty - opp.filled)))
        (fillMaker opp (min remaining (opp.qty - opp.filled)))
        (matchLoop (fillTaker taker (min remaining (opp.qty - opp.filled)))
          (remaining - min remaining (opp.qty - opp.filled))
          (updateBalancesAfterTrade (fillTaker taker (min remaining (opp.qty - opp.filled)))
            (fillMaker opp (min remaining (opp.qty - opp.filled)))
            (min remaining (opp.qty - opp.filled)) (priceKey opp) bals) rest) := by
  simp [matchLoop, h, h2]

theorem matchLoop_skip (taker : Order) (remaining : Int) (bals : List BalanceRow)
    (opp : Order) (rest : List Order) (h : ¬ remaining ≤ 0)
    (h2 : ¬ 0 < min remaining (opp.qty - opp.filled)) :
    matchLoop taker remaining bals (opp :: rest) =
      matchSkip opp (matchLoop taker remaining bals rest) := by
  simp [matchLoop, h, h2]

/-! ### Balance arithmetic -/

theorem tickerSum_upsert (bals : List BalanceRow) (u : UserId) (tk t : Ticker) (d : Int) :
    tickerSum (upsertBalance bals u tk d) t = tickerSum bals t + (if tk = t then d else 0) := by
  induction bals with
  | nil => simp [upsertBalance, tickerSum]
  | cons b rest ih =>
    by_cases h : b.user_id = u ∧ b.ticker = tk
    · simp only [upsertBalance, if_pos h, tickerSum, List.map_cons, List.sum_cons]
      rw [h.2]
      split_ifs <;> ring
    · simp only [upsertBalance, if_neg h, tickerSum, List.map_cons, List.sum_cons]
      have ih' := ih
      simp only [tickerSum] at ih'
      rw [ih']
      ring

theorem changesSum_addChange (l : List ((UserId × Ticker) × Int)) (k : UserId × Ticker)
    (d : Int) (t : Ticker) :
    changesSum (addChange l k d) t = changesSum l t + (if k.2 = t then d else 0) := by
  induction l with
  | nil => simp [addChange, changesSum]
  | cons c cs ih =>
    by_cases h : c.1 = k
    · simp only [addChange, if_pos h, changesSum, List.map_cons, List.sum_cons]
      rw [h]
      split_ifs <;> ring
    · simp only [addChange, if_neg h, changesSum, List.map_cons, List.sum_cons]
      have ih' := ih
      simp only [changesSum] at ih'
      rw [ih']
      ring

theorem changesSum_tradeChanges (b s : UserId) (tk : Ticker) (q p : Int) (t : Ticker) :
    changesSum (tradeChanges b s tk q p) t = 0 := by
  simp only [tradeChanges, changesSum_addChange]
  simp only [changesSum, List.map_nil, List.sum_nil]
  split_ifs <;> ring

theorem insertChange_perm (c : (UserId × Ticker) × Int) (l : List ((UserId × Ticker) × Int)) :
    List.Perm (insertChange c l) (c :: l) := by
  induction l with
  | nil => exact List.Perm.refl _
  | cons x xs ih =>
    simp only [insertChange]
    split
    · exact (List.Perm.cons x ih).trans (List.Perm.swap c x xs)
    · exact List.Perm.refl _

theorem sortChanges_perm (l : List ((UserId × Ticker) × Int)) :
    List.Perm (sortChanges l) l := by
  induction l with
  | nil => exact List.Perm.refl _
  | cons c cs ih => exact (insertChange_perm c (sortChanges cs)).trans (List.Perm.cons c ih)

theorem changesSum_sortChanges (l : List ((UserId × Ticker) × Int)) (t : Ticker) :
    changesSum (sortChanges l) t = changesSum l t :=
  List.Perm.sum_eq ((sortChanges_perm l).map _)

theorem tickerSum_applyChanges (l : List ((UserId × Ticker) × Int)) :
    ∀ (bals : List BalanceRow) (t : Ticker),
      tickerSum (applyChanges bals l) t = tickerSum bals t + changesSum l t := by
  induction l with
  | nil => intro bals t; simp [applyChanges, changesSum]
  | cons c cs ih =>
    intro bals t
    show tickerSum (applyChanges (if c.2 = 0 then bals else upsertBalance bals c.1.1 c.1.2 c.2) cs) t = _
    rw [ih]
    simp only [changesSum, List.map_cons, List.sum_cons]
    by_cases h : c.2 = 0
    · simp only [if_pos h, h]
      split_ifs <;> ring
    · simp only [if_neg h, tickerSum_upsert]
      split_ifs <;> ring

theorem tickerSum_settle (o1 o2 : Order) (q p : Int) (bals : List BalanceRow) (t : Ticker) :
    tickerSum (updateBalancesAfterTrade o1 o2 q p bals) t = tickerSum bals t := by
  unfold updateBalancesAfterTrade
  rw [tickerSum_applyChanges, changesSum_sortChanges, changesSum_tradeChanges]
  ring

theorem matchLoop_tickerSum (t : Ticker) :
    ∀ (cs : List Order) (taker : Order) (remaining : Int) (bals : List BalanceRow),
      tickerSum (matchLoop taker remaining bals cs).balances t = tickerSum bals t := by
  intro cs
  induction cs with
  | nil => intro taker remaining bals; rfl
  | cons opp rest ih =>
    intro taker remaining bals
    by_cases h : remaining ≤ 0
    · rw [matchLoop_stop _ _ _ _ _ h]
    · by_cases h2 : 0 < min remaining (opp.qty - opp.filled)
      · rw [matchLoop_fill _ _ _ _ _ h h2]
        simp only [matchCons]
        rw [ih, tickerSum_settle]
      · rw [matchLoop_skip _ _ _ _ _ h h2]
        simp only [matchSkip]
        rw [ih]

/-! ### Structure of `create_order` and `cancel_order` results -/

theorem create_order_ok (s : EngineState) (rows : List Order) (u : UserId) (body : OrderBody)
    (oid : Nat) (s' : EngineState) (h : create_order s rows u body = (.ok oid, s')) :
    admitCheck s u body = none ∧ oid = s.nextTs ∧
      s' = processOrder s rows (newOrderOf s u body) := by
  unfold create_order at h
  cases hadm : admitCheck s u body with
  | some e => rw [hadm] at h; simp at h
  | none =>
    rw [hadm] at h
    simp only [Prod.mk.injEq, Except.ok.injEq] at h
    exact ⟨rfl, h.1.symm, h.2.symm⟩

theorem create_order_fst_error (s : EngineState) (rows : List Order) (u : UserId)
    (body : OrderBody) (e : AdmissionError) :
    (create_order s rows u body).1 = .error e ↔ admitCheck s u body = some e := by
  unfold create_order
  cases h : admitCheck s u body <;> simp [h]

theorem create_order_error_snd (s : EngineState) (rows : List Order) (u : UserId)
    (body : OrderBody) (e : AdmissionError) (h : (create_order s rows u body).1 = .error e) :
    (create_order s rows u body).2 = s := by
  unfold create_order at h ⊢
  cases hadm : admitCheck s u body with
  | some e2 => simp [hadm]
  | none => rw [hadm] at h; simp at h

theorem cancel_keeps_rest (s : EngineState) (oid : Nat) (u : UserId) :
    (cancel_order s oid u).2.balances = s.balances ∧
    (cancel_order s oid u).2.transactions = s.transactions ∧
    (cancel_order s oid u).2.nextTs = s.nextTs ∧
    (cancel_order s oid u).2.instruments = s.instruments := by
  unfold cancel_order
  cases hf : s.orders.find? (fun o => decide (cancelPred oid u o)) with
  | none => simp [hf, cancelResult]
  | some o0 => simp [hf, cancelResult]

/-! ### Per-ticker conservation along steps -/

theorem step_tickerSum (s s' : EngineState) (h : Step s s') (t : Ticker) :
    tickerSum s'.balances t = tickerSum s.balances t := by
  cases h with
  | submit a rows u body oid hv hperm hc =>
    obtain ⟨-, -, hs⟩ := create_order_ok _ _ _ _ _ _ hc
    subst hs
    simp only [processOrder]
    exact matchLoop_tickerSum t _ _ _ _
  | cancel a oid u b hc =>
    have h2 : s' = (cancel_order s a oid).2 := by rw [hc]
    rw [h2, (cancel_keeps_rest s a oid).1]

/-- C7: every trade settlement applies the four collapsed deltas of
`tradeChanges` (asset to the buyer, RUB cost off the buyer, asset off the
seller, RUB proceeds to the seller), whose per-ticker sum is zero; hence the
total committed amount of every ticker is invariant across any reachable
sequence of engine operations. -/
theorem c7_conservation (s0 s : EngineState) (hr : Reachable s0 s) :
    (∀ (o1 o2 : Order) (q p : Int) (bals : List BalanceRow) (t : Ticker),
        tickerSum (updateBalancesAfterTrade o1 o2 q p bals) t = tickerSum bals t) ∧
    ∀ t, tickerSum s.balances t = tickerSum s0.balances t := by
  constructor
  · intro o1 o2 q p bals t
    exact tickerSum_settle o1 o2 q p bals t
  · intro t
    induction hr with
    | refl => rfl
    | tail hab hbc ih => rw [step_tickerSum _ _ hbc t, ih]

/-! ### Self trades -/

theorem applyChanges_of_zeroes :
    ∀ (l : List ((UserId × Ticker) × Int)) (bals : List BalanceRow),
      (∀ c ∈ l, c.2 = 0) → applyChanges bals l = bals := by
  intro l
  induction l with
  | nil => intro bals _; rfl
  | cons c cs ih =>
    intro bals h
    show applyChanges (if c.2 = 0 then bals else upsertBalance bals c.1.1 c.1.2 c.2) cs = bals
    rw [if_pos (h c (List.mem_cons_self c cs))]
    exact ih bals (fun x hx => h x (List.mem_cons_of_mem c hx))

theorem tradeChanges_self (u : UserId) (tk : Ticker) (q p : Int) :
    ∀ c ∈ tradeChanges u u tk q p, c.2 = 0 := by
  by_cases h : tk = "RUB"
  · subst h
    simp [tradeChanges, addChange]
  · simp [tradeChanges, addChange, Prod.mk.injEq, h]

theorem settle_self (o1 o2 : Order) (q p : Int) (bals : List BalanceRow)
    (h : o1.user_id = o2.user_id) :
    updateBalancesAfterTrade o1 o2 q p bals = bals := by
  simp only [updateBalancesAfterTrade]
  have hb : (if o1.direction = Direction.BUY then o1.user_id else o2.user_id) = o1.user_id := by
    by_cases hd : o1.direction = Direction.BUY
    · rw [if_pos hd]
    · rw [if_neg hd]; exact h.symm
  have hs : (if o1.direction = Direction.SELL then o1.user_id else o2.user_id) = o1.user_id := by
    by_cases hd : o1.direction = Direction.SELL
    · rw [if_pos hd]
    · rw [if_neg hd]; exact h.symm
  rw [hb, hs]
  apply applyChanges_of_zeroes
  intro c hc
  exact tradeChanges_self o1.user_id o1.ticker q p c ((sortChanges_perm _).subset hc)

/-- C10: when an incoming order crosses a resting order of the same user, the
matching loop still records the trade (with `buyer_id = seller_id`), but the
four settlement deltas collapse by `(user, ticker)` key to zero and are
skipped, so the trade's settlement leaves the balance table untouched. -/
theorem c10_self_trade_noop (taker opp : Order) (rest : List Order) (remaining : Int)
    (bals : List BalanceRow) (hu : opp.user_id = taker.user_id)
    (h1 : ¬ remaining ≤ 0) (h2 : 0 < min remaining (opp.qty - opp.filled)) :
    (matchLoop taker remaining bals (opp :: rest)).trades.head? =
      some { ticker := taker.ticker, amount := min remaining (opp.qty - opp.filled),
             price := priceKey opp, buyer_id := taker.user_id, seller_id := taker.user_id,
             maker_id := opp.id } ∧
    (matchLoop taker remaining bals (opp :: rest)).balances =
      (matchLoop (fillTaker taker (min remaining (opp.qty - opp.filled)))
        (remaining - min remaining (opp.qty - opp.filled)) bals rest).balances := by
  rw [matchLoop_fill _ _ _ _ _ h1 h2]
  have hsettle : updateBalancesAfterTrade
      (fillTaker taker (min remaining (opp.qty - opp.filled)))
      (fillMaker opp (min remaining (opp.qty - opp.filled)))
      (min remaining (opp.qty - opp.filled)) (priceKey opp) bals = bals := by
    apply settle_self
    simp [fillTaker, fillMaker, hu]
  rw [hsettle]
  constructor
  · simp only [matchCons, List.head?_cons, Option.some.injEq, fillTx]
    cases hd : taker.direction <;> simp [hd, hu]
  · simp [matchCons]

/-! ### Admission -/

theorem requiredRub_eq (body : OrderBody) (hv : validBody body) :
    requiredRub body = body.qty * bodyPriceOr1 body := by
  cases body with
  | limit t d q p =>
    obtain ⟨hq, hp⟩ := hv
    have hp0 : ¬ p = 0 := by omega
    simp [requiredRub, bodyPriceOr1, hp0, OrderBody.qty]
  | market t d q => simp [requiredRub, bodyPriceOr1, OrderBody.qty]

theorem requiredRub_pos (body : OrderBody) (hv : validBody body) :
    0 < requiredRub body := by
  cases body with
  | limit t d q p =>
    obtain ⟨hq, hp⟩ := hv
    exact mul_pos (by omega) (by omega)
  | market t d q =>
    have hq : 1 ≤ q := hv
    simp only [requiredRub]
    omega

theorem admitCheck_spec (s : EngineState) (u : UserId) (body : OrderBody)
    (hv : validBody body) (hins : body.ticker ∈ s.instruments) :
    (admitCheck s u body = some .InsufficientFunds ↔
      body.direction = .BUY ∧ specBalance s u "RUB" < requiredRub body) ∧
    (admitCheck s u body = some .InsufficientAsset ↔
      body.direction = .SELL ∧ specBalance s u body.ticker < body.qty) := by
  have hq : 0 < body.qty := by
    cases body with
    | limit t d q p => exact lt_of_lt_of_le one_pos hv.1
    | market t d q => exact lt_of_lt_of_le one_pos hv
  unfold admitCheck
  rw [if_neg (not_not_intro hins)]
  by_cases hd : body.direction = Direction.BUY
  · rw [if_pos hd]
    cases hb : userBalRow s u "RUB" with
    | none =>
      simp only [fundsCheckRow]
      constructor
      · constructor
        · intro _
          refine ⟨hd, ?_⟩
          simp only [specBalance, hb]
          exact requiredRub_pos body hv
        · intro _; trivial
      · constructor
        · intro h; simp at h
        · rintro ⟨hsell, -⟩
          rw [hd] at hsell
          cases hsell
    | some b =>
      have hspec : specBalance s u "RUB" = b.amount := by simp [specBalance, hb]
      rw [requiredRub_eq body hv, hspec]
      simp only [fundsCheckRow]
      by_cases hlt : b.amount < body.qty * bodyPriceOr1 body
      · rw [if_pos hlt]
        constructor
        · exact ⟨fun _ => ⟨hd, hlt⟩, fun _ => rfl⟩
        · constructor
          · intro h; simp at h
          · rintro ⟨hsell, -⟩
            rw [hd] at hsell
            cases hsell
      · rw [if_neg hlt]
        constructor
        · constructor
          · intro h; simp at h
          · rintro ⟨-, hlt2⟩; exact absurd hlt2 hlt
        · constructor
          · intro h; simp at h
          · rintro ⟨hsell, -⟩
            rw [hd] at hsell
            cases hsell
  · rw [if_neg hd]
    have hsell : body.direction = Direction.SELL := by
      cases hdir : body.direction
      · exact absurd hdir hd
      · rfl
    cases hb : userBalRow s u body.ticker with
    | none =>
      simp only [fundsCheckRow]
      constructor
      · constructor
        · intro h; simp at h
        · rintro ⟨hbuy, -⟩; exact absurd hbuy hd
      · constructor
        · intro _
          refine ⟨hsell, ?_⟩
          simp only [specBalance, hb]
          exact hq
        · intro _; trivial
    | some b =>
      have hspec : specBalance s u body.ticker = b.amount := by simp [specBalance, hb]
      rw [hspec]
      simp only [fundsCheckRow]
      by_cases hlt : b.amount < body.qty
      · rw [if_pos hlt]
        constructor
        · constructor
          · intro h; simp at h
          · rintro ⟨hbuy, -⟩; exact absurd hbuy hd
        · exact ⟨fun _ => ⟨hsell, hlt⟩, fun _ => rfl⟩
      · rw [if_neg hlt]
        constructor
        · constructor
          · intro h; simp at h
          · rintro ⟨hbuy, -⟩; exact absurd hbuy hd
        · constructor
          · intro h; simp at h
          · rintro ⟨-, hlt2⟩; exact absurd hlt2 hlt

/-- C4: with the instrument present, submission fails with
`InsufficientFunds` exactly for a BUY whose committed RUB balance is below
`qty · price` (LIMIT) resp. `qty · 1` (MARKET floor), and with
`InsufficientAsset` exactly for a SELL whose committed balance of the
order's ticker is below `qty`; on either rejection the raise happens before
any row is added, so the state is returned unchanged — for every scan order
`rows` of the matching query, which admission never reads. -/
theorem c4_admission_rejects_underfunded (s : EngineState) (rows : List Order) (u : UserId)
    (body : OrderBody)
    (hv : validBody body) (hins : body.ticker ∈ s.instruments) :
    ((create_order s rows u body).1 = .error .InsufficientFunds ↔
      body.direction = .BUY ∧ specBalance s u "RUB" < requiredRub body) ∧
    ((create_order s rows u body).1 = .error .InsufficientAsset ↔
      body.direction = .SELL ∧ specBalance s u body.ticker < body.qty) ∧
    ∀ e, (create_order s rows u body).1 = .error e → (create_order s rows u body).2 = s := by
  obtain ⟨h1, h2⟩ := admitCheck_spec s u body hv hins
  refine ⟨?_, ?_, ?_⟩
  · rw [create_order_fst_error]; exact h1
  · rw [create_order_fst_error]; exact h2
  · intro e he; exact create_order_error_snd s rows u body e he

/-! ### Non-negativity fails on the code -/

/-- C1 (counterexample): non-negativity of committed balances is violated.
From a deposited state (`S` holds 1 AAPL, `B` holds 1 RUB) the engine accepts
`S`'s SELL LIMIT 1@100 and then `B`'s MARKET BUY 1 — the MARKET floor checks
`qty · 1 = 1 ≤ 1` — and settles the trade at the maker price 100, committing
`B`'s RUB balance at `-99`. -/
theorem c1_nonneg_counterexample :
    ¬ (∀ s0 s : EngineState, initState s0 → Reachable s0 s →
        ∀ b ∈ s.balances, 0 ≤ b.amount) := by
  intro hclaim
  have h1 : Step cS0 cS1 :=
    Step.submit cS0 cS0.orders "S" cSellBody 0 cS1 (by decide) (List.Perm.refl _) rfl
  have h2 : Step cS1 cS2 :=
    Step.submit cS1 cS1.orders "B" cMktBody 1 cS2 (by decide) (List.Perm.refl _) rfl
  have hr : Reachable cS0 cS2 := Relation.ReflTransGen.tail (Relation.ReflTransGen.single h1) h2
  have hmem : ({ user_id := "B", ticker := "RUB", amount := -99 } : BalanceRow) ∈ cS2.balances := by
    decide
  have hge := hclaim cS0 cS2 (by decide) hr _ hmem
  exact absurd hge (by decide)

/-- C1 (amended): non-negativity holds only at admission time, not at every
committed state: whenever the engine accepts an order, the submitting user's
committed balance at that moment covers the order's nominal requirement
(`qty · (price or 1)` in RUB for a BUY, `qty` of the ticker for a SELL);
settlement can still drive balances negative. -/
theorem c1_admission_covers_nominal_cost (s : EngineState) (rows : List Order) (u : UserId)
    (body : OrderBody) (oid : Nat) (s' : EngineState)
    (hc : create_order s rows u body = (.ok oid, s')) :
    (body.direction = .BUY → body.qty * bodyPriceOr1 body ≤ specBalance s u "RUB") ∧
    (body.direction = .SELL → body.qty ≤ specBalance s u body.ticker) := by
  obtain ⟨hadm, -, -⟩ := create_order_ok _ _ _ _ _ _ hc
  unfold admitCheck at hadm
  by_cases hins : body.ticker ∈ s.instruments
  · rw [if_neg (not_not_intro hins)] at hadm
    constructor
    · intro hd
      rw [if_pos hd] at hadm
      cases hb : userBalRow s u "RUB" with
      | none => rw [hb] at hadm; simp [fundsCheckRow] at hadm
      | some b =>
        rw [hb] at hadm
        simp only [fundsCheckRow] at hadm
        by_cases hlt : b.amount < body.qty * bodyPriceOr1 body
        · rw [if_pos hlt] at hadm; simp at hadm
        · simp only [specBalance, hb]
          omega
    · intro hd
      have hnb : ¬ body.direction = Direction.BUY := by rw [hd]; simp
      rw [if_neg hnb] at hadm
      cases hb : userBalRow s u body.ticker with
      | none => rw [hb] at hadm; simp [fundsCheckRow] at hadm
      | some b =>
        rw [hb] at hadm
        simp only [fundsCheckRow] at hadm
        by_cases hlt : b.amount < body.qty
        · rw [if_pos hlt] at hadm; simp at hadm
        · simp only [specBalance, hb]
          omega
  · rw [if_pos hins] at hadm
    simp at hadm

/-! ### Cancellation -/

/-- C9: `cancel_order` returns `true` and flips the order to `CANCELLED`
exactly when an order with that id exists, belongs to the user and is still
`NEW` or `PARTIALLY_EXECUTED`; otherwise (wrong owner, unknown id, already
`CANCELLED` or `EXECUTED`) it returns `false` and changes nothing; balances
are untouched in every case. -/
theorem c9_cancel_spec (s : EngineState) (oid : Nat) (u : UserId) :
    ((cancel_order s oid u).1 = true ↔
      ∃ o ∈ s.orders, o.id = oid ∧ o.user_id = u ∧
        (o.status = .NEW ∨ o.status = .PARTIALLY_EXECUTED)) ∧
    (cancel_order s oid u).2.balances = s.balances ∧
    ((cancel_order s oid u).1 = false → (cancel_order s oid u).2 = s) ∧
    (∀ o ∈ s.orders,
      (o.id = oid ∧ o.user_id = u ∧ (o.status = .NEW ∨ o.status = .PARTIALLY_EXECUTED)) →
      { o with status := OrderStatus.CANCELLED } ∈ (cancel_order s oid u).2.orders) ∧
    (∀ o ∈ s.orders,
      ¬ (o.id = oid ∧ o.user_id = u ∧ (o.status = .NEW ∨ o.status = .PARTIALLY_EXECUTED)) →
      o ∈ (cancel_order s oid u).2.orders) := by
  unfold cancel_order
  cases hf : s.orders.find? (fun o => decide (cancelPred oid u o)) with
  | none =>
    rw [List.find?_eq_none] at hf
    simp only [cancelResult]
    refine ⟨?_, by trivial, fun _ => by trivial, ?_, ?_⟩
    · constructor
      · intro h; simp at h
      · rintro ⟨o, ho, hP⟩
        exact absurd (decide_eq_true (show cancelPred oid u o from hP)) (hf o ho)
    · intro o ho hP
      exact absurd (decide_eq_true (show cancelPred oid u o from hP)) (hf o ho)
    · intro o ho _
      exact ho
  | some o0 =>
    have hP0 : cancelPred oid u o0 :=
      of_decide_eq_true (@List.find?_some _ (fun o => decide (cancelPred oid u o)) o0 _ hf)
    refine ⟨⟨fun _ => ?_, fun _ => rfl⟩, rfl, ?_, ?_, ?_⟩
    · exact ⟨o0, List.mem_of_find?_eq_some hf, hP0⟩
    · intro h
      exact absurd h (by simp [cancelResult])
    · intro o ho hP
      exact List.mem_map.2 ⟨o, ho, by exact if_pos (show cancelPred oid u o from hP)⟩
    · intro o ho hP
      exact List.mem_map.2 ⟨o, ho, by exact if_neg (show ¬ cancelPred oid u o from hP)⟩

/-! ### Concrete witnesses -/

theorem c1_admission_coverage_witness :
    wSell1.qty ≤ specBalance wS0 "B" wSell1.ticker :=
  (c1_admission_covers_nominal_cost wS0 wS0.orders "B" wSell1 0 wS1 rfl).2 rfl

theorem c4_admission_witness :
    (create_order
      { instruments := ["RUB", "AAPL"], orders := [], transactions := [],
        balances := [⟨"A", "RUB", 10⟩], nextTs := 0 }
      [] "A" (.limit "AAPL" .BUY 1 100)).1 = .error .InsufficientFunds :=
  (c4_admission_rejects_underfunded
    { instruments := ["RUB", "AAPL"], orders := [], transactions := [],
      balances := [⟨"A", "RUB", 10⟩], nextTs := 0 }
    [] "A" (.limit "AAPL" .BUY 1 100) (by decide) (by decide)).1.mpr ⟨rfl, by decide⟩

theorem c7_conservation_witness :
    tickerSum wS1.balances "AAPL" = tickerSum wS0.balances "AAPL" :=
  (c7_conservation wS0 wS1
    (Relation.ReflTransGen.single
      (Step.submit wS0 wS0.orders "B" wSell1 0 wS1 (by decide) (List.Perm.refl _) rfl))).2 "AAPL"

theorem c9_cancel_witness : (cancel_order wS3 1 "B").1 = true :=
  (c9_cancel_spec wS3 1 "B").1.mpr
    ⟨{ id := 1, user_id := "B", ticker := "AAPL", direction := .SELL, qty := 5,
       price := some 100, order_type := .LIMIT, status := .PARTIALLY_EXECUTED, filled := 1 },
     by decide, by decide⟩

theorem c10_self_trade_witness :
    (matchLoop
      { id := 1, user_id := "U", ticker := "T", direction := .BUY, qty := 2,
        price := some 5, order_type := .LIMIT, status := .NEW, filled := 0 }
      2 [⟨"U", "T", 1⟩]
      [{ id := 0, user_id := "U", ticker := "T", direction := .SELL, qty := 1,
         price := some 5, order_type := .LIMIT, status := .NEW, filled := 0 }]).trades.head? =
      some { ticker := "T", amount := 1, price := 5, buyer_id := "U", seller_id := "U",
             maker_id := 0 } :=
  (c10_self_trade_noop
    { id := 1, user_id := "U", ticker := "T", direction := .BUY, qty := 2,
      price := some 5, order_type := .LIMIT, status := .NEW, filled := 0 }
    { id := 0, user_id := "U", ticker := "T", direction := .SELL, qty := 1,
      price := some 5, order_type := .LIMIT, status := .NEW, filled := 0 }
    [] 2 [⟨"U", "T", 1⟩] rfl (by decide) (by decide)).1

/-! ### Structure of the matching pass -/

theorem matchLoop_trades_nil (taker : Order) (remaining : Int) (bals : List BalanceRow)
    (cs : List Order) (h : remaining ≤ 0) :
    (matchLoop taker remaining bals cs).trades = [] := by
  cases cs with
  | nil => rfl
  | cons opp rest => rw [matchLoop_stop _ _ _ _ _ h]

theorem matchLoop_trades_pos (taker : Order) (remaining : Int) (bals : List BalanceRow)
    (cs : List Order) (h : (matchLoop taker remaining bals cs).trades ≠ []) :
    0 < remaining := by
  by_contra hr
  exact h (matchLoop_trades_nil taker remaining bals cs (by omega))

theorem matchLoop_trades_maker (cs : List Order) :
    ∀ (taker : Order) (remaining : Int) (bals : List BalanceRow),
      ∀ tx ∈ (matchLoop taker remaining bals cs).trades,
        ∃ c ∈ cs, c.id = tx.maker_id ∧ tx.price = priceKey c := by
  induction cs with
  | nil => intro taker remaining bals tx htx; simp [matchLoop_nil] at htx
  | cons opp rest ih =>
    intro taker remaining bals tx htx
    by_cases h : remaining ≤ 0
    · rw [matchLoop_stop _ _ _ _ _ h] at htx
      simp at htx
    · by_cases h2 : 0 < min remaining (opp.qty - opp.filled)
      · rw [matchLoop_fill _ _ _ _ _ h h2] at htx
        simp only [matchCons, List.mem_cons] at htx
        cases htx with
        | inl he => exact ⟨opp, List.mem_cons_self _ _, by rw [he]; exact ⟨rfl, rfl⟩⟩
        | inr hm =>
          obtain ⟨c, hc, hid, hp⟩ := ih _ _ _ tx hm
          exact ⟨c, List.mem_cons_of_mem _ hc, hid, hp⟩
      · rw [matchLoop_skip _ _ _ _ _ h h2] at htx
        simp only [matchSkip] at htx
        obtain ⟨c, hc, hid, hp⟩ := ih _ _ _ tx htx
        exact ⟨c, List.mem_cons_of_mem _ hc, hid, hp⟩

theorem fillMaker_ok (opp : Order) (e : Int) (h1 : 0 < e) (h2 : e ≤ opp.qty - opp.filled)
    (ho : OrderOK opp) : OrderOK (fillMaker opp e) := by
  obtain ⟨hf0, hfq, hq, hex, hnew, hty⟩ := ho
  refine ⟨?_, ?_, ?_, ?_, ?_, ?_⟩
  · show 0 ≤ opp.filled + e
    omega
  · show opp.filled + e ≤ opp.qty
    omega
  · exact hq
  · show (if opp.qty ≤ opp.filled + e then OrderStatus.EXECUTED
      else OrderStatus.PARTIALLY_EXECUTED) = OrderStatus.EXECUTED ↔ opp.filled + e = opp.qty
    by_cases hfull : opp.qty ≤ opp.filled + e
    · rw [if_pos hfull]
      constructor
      · intro _; omega
      · intro _; rfl
    · rw [if_neg hfull]
      constructor
      · intro hc; cases hc
      · intro hc; omega
  · show (if opp.qty ≤ opp.filled + e then OrderStatus.EXECUTED
      else OrderStatus.PARTIALLY_EXECUTED) = OrderStatus.NEW → opp.filled + e = 0
    by_cases hfull : opp.qty ≤ opp.filled + e
    · rw [if_pos hfull]; intro hc; cases hc
    · rw [if_neg hfull]; intro hc; cases hc
  · exact hty

theorem matchLoop_makers_shape (cs : List Order) :
    ∀ (taker : Order) (remaining : Int) (bals : List BalanceRow),
      ∀ c' ∈ (matchLoop taker remaining bals cs).makers,
        ∃ c ∈ cs, c'.id = c.id ∧ c'.ticker = c.ticker ∧ c'.user_id = c.user_id ∧
          c'.direction = c.direction ∧ c'.qty = c.qty ∧ c'.price = c.price ∧
          c'.order_type = c.order_type ∧ (OrderOK c → OrderOK c') := by
  induction cs with
  | nil => intro taker remaining bals c' hc'; simp [matchLoop_nil] at hc'
  | cons opp rest ih =>
    intro taker remaining bals c' hc'
    by_cases h : remaining ≤ 0
    · rw [matchLoop_stop _ _ _ _ _ h] at hc'
      exact ⟨c', hc', rfl, rfl, rfl, rfl, rfl, rfl, rfl, fun hk => hk⟩
    · by_cases h2 : 0 < min remaining (opp.qty - opp.filled)
      · rw [matchLoop_fill _ _ _ _ _ h h2] at hc'
        simp only [matchCons, List.mem_cons] at hc'
        cases hc' with
        | inl he =>
          refine ⟨opp, List.mem_cons_self _ _, ?_⟩
          rw [he]
          refine ⟨rfl, rfl, rfl, rfl, rfl, rfl, rfl, ?_⟩
          intro hk
          exact fillMaker_ok opp _ h2 (min_le_right _ _) hk
        | inr hm =>
          obtain ⟨c, hc, hrest⟩ := ih _ _ _ c' hm
          exact ⟨c, List.mem_cons_of_mem _ hc, hrest⟩
      · rw [matchLoop_skip _ _ _ _ _ h h2] at hc'
        simp only [matchSkip, List.mem_cons] at hc'
        cases hc' with
        | inl he =>
          rw [he]
          exact ⟨opp, List.mem_cons_self _ _, rfl, rfl, rfl, rfl, rfl, rfl, rfl, fun hk => hk⟩
        | inr hm =>
          obtain ⟨c, hc, hrest⟩ := ih _ _ _ c' hm
          exact ⟨c, List.mem_cons_of_mem _ hc, hrest⟩

theorem matchLoop_makers_cover (cs : List Order) :
    ∀ (taker : Order) (remaining : Int) (bals : List BalanceRow),
      ∀ c ∈ cs, ∃ c' ∈ (matchLoop taker remaining bals cs).makers, c'.id = c.id := by
  induction cs with
  | nil => intro taker remaining bals c hc; simp at hc
  | cons opp rest ih =>
    intro taker remaining bals c hc
    by_cases h : remaining ≤ 0
    · rw [matchLoop_stop _ _ _ _ _ h]
      exact ⟨c, hc, rfl⟩
    · by_cases h2 : 0 < min remaining (opp.qty - opp.filled)
      · rw [matchLoop_fill _ _ _ _ _ h h2]
        simp only [matchCons]
        cases hc with
        | head => exact ⟨fillMaker opp _, List.mem_cons_self _ _, rfl⟩
        | tail _ hm =>
          obtain ⟨c', hc', hid⟩ := ih _ _ _ c hm
          exact ⟨c', List.mem_cons_of_mem _ hc', hid⟩
      · rw [matchLoop_skip _ _ _ _ _ h h2]
        simp only [matchSkip]
        cases hc with
        | head => exact ⟨opp, List.mem_cons_self _ _, rfl⟩
        | tail _ hm =>
          obtain ⟨c', hc', hid⟩ := ih _ _ _ c hm
          exact ⟨c', List.mem_cons_of_mem _ hc', hid⟩

theorem matchLoop_taker_shape (cs : List Order) :
    ∀ (taker : Order) (remaining : Int) (bals : List BalanceRow),
      (matchLoop taker remaining bals cs).taker =
        { taker with filled := taker.filled + (remaining - (matchLoop taker remaining bals cs).remaining) } ∧
      (matchLoop taker remaining bals cs).remaining ≤ remaining ∧
      (0 ≤ remaining → 0 ≤ (matchLoop taker remaining bals cs).remaining) := by
  induction cs with
  | nil =>
    intro taker remaining bals
    refine ⟨?_, le_refl _, fun h => h⟩
    show taker = { taker with filled := taker.filled + (remaining - remaining) }
    simp
  | cons opp rest ih =>
    intro taker remaining bals
    by_cases h : remaining ≤ 0
    · rw [matchLoop_stop _ _ _ _ _ h]
      refine ⟨?_, le_refl _, fun hh => hh⟩
      show taker = { taker with filled := taker.filled + (remaining - remaining) }
      simp
    · by_cases h2 : 0 < min remaining (opp.qty - opp.filled)
      · rw [matchLoop_fill _ _ _ _ _ h h2]
        simp only [matchCons]
        obtain ⟨ht, hr, hnn⟩ := ih (fillTaker taker (min remaining (opp.qty - opp.filled)))
          (remaining - min remaining (opp.qty - opp.filled))
          (updateBalancesAfterTrade (fillTaker taker (min remaining (opp.qty - opp.filled)))
            (fillMaker opp (min remaining (opp.qty - opp.filled)))
            (min remaining (opp.qty - opp.filled)) (priceKey opp) bals)
        refine ⟨?_, by omega, fun _ => hnn (by omega)⟩
        rw [ht]
        simp only [fillTaker]
        congr 1
        omega
      · rw [matchLoop_skip _ _ _ _ _ h h2]
        simp only [matchSkip]
        exact ih _ _ _

/-! ### Sorting and priority -/

theorem insertOrd_perm (lt : Order → Order → Bool) (a : Order) (l : List Order) :
    List.Perm (insertOrd lt a l) (a :: l) := by
  induction l with
  | nil => exact List.Perm.refl _
  | cons x xs ih =>
    simp only [insertOrd]
    split
    · exact (List.Perm.cons x ih).trans (List.Perm.swap a x xs)
    · exact List.Perm.refl _

theorem sortOrders_perm (lt : Order → Order → Bool) (l : List Order) :
    List.Perm (sortOrders lt l) l := by
  induction l with
  | nil => exact List.Perm.refl _
  | cons a l ih => exact (insertOrd_perm lt a (sortOrders lt l)).trans (List.Perm.cons a ih)

theorem priceBefore_iff (d : Direction) (a b : Order) :
    priceBefore d a b = true ↔ priceLt d a b := by
  cases d <;> simp [priceBefore, priceLt]

theorem priceLt_irrefl (d : Direction) (a : Order) : ¬ priceLt d a a := by
  cases d <;> simp only [priceLt] <;> omega

theorem priceLt_asymm (d : Direction) (x a : Order) (h : priceLt d x a) :
    ¬ priceLt d a x := by
  cases d <;> simp only [priceLt] at * <;> omega

theorem priceNotLt_trans (d : Direction) (a b c : Order)
    (h1 : ¬ priceLt d b a) (h2 : ¬ priceLt d c b) : ¬ priceLt d c a := by
  cases d <;> simp only [priceLt] at * <;> omega

theorem insertOrd_priceSorted (d : Direction) (a : Order) (l : List Order)
    (hl : l.Pairwise fun x y => ¬ priceLt d y x) :
    (insertOrd (priceBefore d) a l).Pairwise (fun x y => ¬ priceLt d y x) := by
  induction l with
  | nil => simp [insertOrd]
  | cons x xs ih =>
    simp only [insertOrd]
    rw [List.pairwise_cons] at hl
    by_cases hx : priceBefore d x a = true
    · rw [if_pos hx]
      rw [List.pairwise_cons]
      refine ⟨?_, ih hl.2⟩
      intro y hy
      have hy' := (insertOrd_perm (priceBefore d) a xs).subset hy
      cases hy' with
      | head => exact priceLt_asymm d x a ((priceBefore_iff d x a).mp hx)
      | tail _ hyx => exact hl.1 y hyx
    · rw [if_neg hx]
      have hnot : ¬ priceLt d x a := fun hp => hx ((priceBefore_iff d x a).mpr hp)
      rw [List.pairwise_cons]
      refine ⟨?_, List.pairwise_cons.mpr hl⟩
      intro y hy
      cases hy with
      | head => exact hnot
      | tail _ hyx => exact priceNotLt_trans d a x y hnot (hl.1 y hyx)

/-- Whatever the scan order of the input, the sort's output is ordered by
price — the only ordering guarantee the SQL gives. -/
theorem sortOrders_priceSorted (d : Direction) (l : List Order) :
    (sortOrders (priceBefore d) l).Pairwise (fun x y => ¬ priceLt d y x) := by
  induction l with
  | nil => simp [sortOrders]
  | cons a l ih => exact insertOrd_priceSorted d a _ ih

theorem pairwise_lt_unique (l : List Order) (h : l.Pairwise fun a b => a.id < b.id) :
    ∀ a ∈ l, ∀ b ∈ l, a.id = b.id → a = b := by
  induction l with
  | nil => intro a ha; simp at ha
  | cons x xs ih =>
    rw [List.pairwise_cons] at h
    intro a ha b hb hab
    cases ha with
    | head =>
      cases hb with
      | head => rfl
      | tail _ hbx => exact absurd hab (by have := h.1 b hbx; omega)
    | tail _ hax =>
      cases hb with
      | head => exact absurd hab (by have := h.1 a hax; omega)
      | tail _ hbx => exact ih h.2 a hax b hbx hab

/-- Over any candidate list that is merely sorted by price — the only
property every admissible scan order yields — a candidate with a strictly
better price than a trade's maker ends the pass fully filled. -/
theorem matchLoop_priority (d : Direction) (cs : List Order) :
    ∀ (taker : Order) (remaining : Int) (bals : List BalanceRow),
      cs.Pairwise (fun a b => ¬ priceLt d b a) →
      cs.Pairwise (fun a b => a.id ≠ b.id) →
      ∀ tx ∈ (matchLoop taker remaining bals cs).trades,
      ∀ m ∈ cs, m.id = tx.maker_id →
      ∀ c ∈ cs, priceLt d c m →
      ∀ c' ∈ (matchLoop taker remaining bals cs).makers, c'.id = c.id →
      c'.qty ≤ c'.filled := by
  induction cs with
  | nil =>
    intro taker remaining bals _ _ tx htx
    simp [matchLoop_nil] at htx
  | cons opp rest ih =>
    intro taker remaining bals hpw hids tx htx m hm hmid c hc hbetter c' hc' hcid
    rw [List.pairwise_cons] at hpw hids
    by_cases h : remaining ≤ 0
    · rw [matchLoop_stop _ _ _ _ _ h] at htx
      simp at htx
    · by_cases h2 : 0 < min remaining (opp.qty - opp.filled)
      · rw [matchLoop_fill _ _ _ _ _ h h2] at htx hc'
        simp only [matchCons, List.mem_cons] at htx hc'
        cases htx with
        | inl htx0 =>
          have hmo : m.id = opp.id := by
            rw [htx0] at hmid
            simpa [fillTx] using hmid
          have hmopp : m = opp := by
            cases hm with
            | head => rfl
            | tail _ hmr => exact absurd hmo.symm (hids.1 m hmr)
          rw [hmopp] at hbetter
          cases hc with
          | head => exact absurd hbetter (priceLt_irrefl d opp)
          | tail _ hcr => exact absurd hbetter (hpw.1 c hcr)
        | inr htxr =>
          have hpos : 0 < remaining - min remaining (opp.qty - opp.filled) :=
            matchLoop_trades_pos _ _ _ _ (List.ne_nil_of_mem htxr)
          have hefull : min remaining (opp.qty - opp.filled) = opp.qty - opp.filled := by
            rcases min_choice remaining (opp.qty - opp.filled) with hmin | hmin
            · omega
            · exact hmin
          have hmrest : m ∈ rest := by
            obtain ⟨cm, hcm, hcmid, -⟩ := matchLoop_trades_maker rest _ _ _ tx htxr
            cases hm with
            | head => exact absurd (hmid.trans hcmid.symm) (hids.1 cm hcm)
            | tail _ hmr => exact hmr
          cases hc with
          | head =>
            cases hc' with
            | inl hc'0 =>
              rw [hc'0]
              show (fillMaker opp (min remaining (opp.qty - opp.filled))).qty ≤
                (fillMaker opp (min remaining (opp.qty - opp.filled))).filled
              simp only [fillMaker]
              omega
            | inr hc'r =>
              obtain ⟨cr, hcr, hcrid, -⟩ := matchLoop_makers_shape rest _ _ _ c' hc'r
              exact absurd (hcrid.symm.trans hcid).symm (hids.1 cr hcr)
          | tail _ hcr =>
            cases hc' with
            | inl hc'0 =>
              have : c'.id = opp.id := by rw [hc'0]; rfl
              exact absurd (this.symm.trans hcid) (hids.1 c hcr)
            | inr hc'r =>
              exact ih _ _ _ hpw.2 hids.2 tx htxr m hmrest hmid c hcr hbetter c' hc'r hcid
      · rw [matchLoop_skip _ _ _ _ _ h h2] at htx hc'
        simp only [matchSkip, List.mem_cons] at htx hc'
        have havail : opp.qty - opp.filled ≤ 0 := by
          rcases min_choice remaining (opp.qty - opp.filled) with hmin | hmin <;> omega
        have hmrest : m ∈ rest := by
          obtain ⟨cm, hcm, hcmid, -⟩ := matchLoop_trades_maker rest _ _ _ tx htx
          cases hm with
          | head => exact absurd (hmid.trans hcmid.symm) (hids.1 cm hcm)
          | tail _ hmr => exact hmr
        cases hc with
        | head =>
          cases hc' with
          | inl hc'0 =>
            rw [hc'0]
            omega
          | inr hc'r =>
            obtain ⟨cr, hcr, hcrid, -⟩ := matchLoop_makers_shape rest _ _ _ c' hc'r
            exact absurd (hcrid.symm.trans hcid).symm (hids.1 cr hcr)
        | tail _ hcr =>
          cases hc' with
          | inl hc'0 =>
            have : c'.id = opp.id := by rw [hc'0]
            exact absurd (this.symm.trans hcid) (hids.1 c hcr)
          | inr hc'r =>
            exact ih _ _ _ hpw.2 hids.2 tx htx m hmrest hmid c hcr hbetter c' hc'r hcid

/-! ### Candidate sets -/

theorem mem_marketCandidates (orders : List Order) (order : Order) (o : Order) :
    o ∈ marketCandidates orders order ↔
      o ∈ orders ∧ o.ticker = order.ticker ∧ o.direction = oppositeOf order.direction ∧
        (o.status = .NEW ∨ o.status = .PARTIALLY_EXECUTED) ∧ o.order_type = .LIMIT := by
  unfold marketCandidates
  rw [(sortOrders_perm _ _).mem_iff, List.mem_filter]
  simp [decide_eq_true_eq]

theorem mem_limitCandidates (orders : List Order) (order : Order) (o : Order) :
    o ∈ limitCandidates orders order ↔
      o ∈ orders ∧ o.ticker = order.ticker ∧ o.direction = oppositeOf order.direction ∧
        (o.status = .NEW ∨ o.status = .PARTIALLY_EXECUTED) ∧
        optCrossB order.direction o.price order.price = true := by
  unfold limitCandidates
  rw [(sortOrders_perm _ _).mem_iff, List.mem_filter]
  simp [Bool.and_eq_true, decide_eq_true_eq, and_assoc]

theorem candidatesFor_sub (orders : List Order) (order : Order) :
    ∀ c ∈ candidatesFor orders order, c ∈ orders := by
  intro c hc
  unfold candidatesFor at hc
  split at hc
  · exact ((mem_marketCandidates _ _ _).1 hc).1
  · exact ((mem_limitCandidates _ _ _).1 hc).1

theorem candidatesFor_priceSorted (orders : List Order) (order : Order) :
    (candidatesFor orders order).Pairwise (fun x y => ¬ priceLt order.direction y x) := by
  unfold candidatesFor marketCandidates limitCandidates
  split <;> exact sortOrders_priceSorted _ _

theorem candidatesFor_ids (orders : List Order) (order : Order)
    (h : orders.Pairwise fun a b => a.id ≠ b.id) :
    (candidatesFor orders order).Pairwise (fun a b => a.id ≠ b.id) := by
  unfold candidatesFor marketCandidates limitCandidates
  split <;>
    exact ((sortOrders_perm _ _).pairwise_iff (fun hab => Ne.symm hab)).mpr
      (List.Pairwise.sublist (List.filter_sublist _) h)

/-- Id distinctness of the stored book transfers to any scan order of it. -/
theorem rows_ids_distinct (rows orders : List Order) (hperm : List.Perm rows orders)
    (h : orders.Pairwise fun a b => a.id < b.id) :
    rows.Pairwise (fun a b => a.id ≠ b.id) := by
  have hne : orders.Pairwise (fun a b => a.id ≠ b.id) := h.imp (by intro a b hh; omega)
  exact (hperm.pairwise_iff (fun hab => Ne.symm hab)).mpr hne

theorem optCrossB_none_left (d : Direction) (q : Option Int) :
    optCrossB d none q = false := by
  cases d <;> rfl

theorem candidatesFor_limit (orders : List Order) (order : Order)
    (hwfo : ∀ o ∈ orders, OrderOK o) :
    ∀ c ∈ candidatesFor orders order, c.order_type = .LIMIT := by
  intro c hc
  unfold candidatesFor at hc
  split at hc
  · exact ((mem_marketCandidates _ _ _).1 hc).2.2.2.2
  · obtain ⟨hmem, -, -, -, hcross⟩ := (mem_limitCandidates _ _ _).1 hc
    have hok := hwfo c hmem
    cases hty : c.order_type with
    | LIMIT => rfl
    | MARKET =>
      have hnone : c.price = none := by
        have := hok.2.2.2.2.2
        rw [hty] at this
        exact this
      rw [hnone, optCrossB_none_left] at hcross
      cases hcross

/-! ### Write-back of mutated book rows -/

theorem applyUpdate_one (upd : List Order) (o : Order) :
    ((upd.find? fun u2 => decide (u2.id = o.id)).getD o).id = o.id ∧
    (((upd.find? fun u2 => decide (u2.id = o.id)).getD o) = o ∨
      ((upd.find? fun u2 => decide (u2.id = o.id)).getD o) ∈ upd) := by
  cases hf : upd.find? fun u2 => decide (u2.id = o.id) with
  | none => exact ⟨rfl, Or.inl rfl⟩
  | some u =>
    have hid : u.id = o.id :=
      of_decide_eq_true (@List.find?_some _ (fun u2 => decide (u2.id = o.id)) u _ hf)
    exact ⟨hid, Or.inr (List.mem_of_find?_eq_some hf)⟩

theorem applyUpdate_found (upd : List Order) (o : Order) (hex : ∃ u ∈ upd, u.id = o.id) :
    ((upd.find? fun u2 => decide (u2.id = o.id)).getD o) ∈ upd := by
  cases hf : upd.find? fun u2 => decide (u2.id = o.id) with
  | none =>
    rw [List.find?_eq_none] at hf
    obtain ⟨u, hu, hid⟩ := hex
    exact absurd (decide_eq_true (show u.id = o.id from hid)) (hf u hu)
  | some u => exact List.mem_of_find?_eq_some hf

theorem applyUpdates_pairwise (orders upd : List Order)
    (h : orders.Pairwise fun a b => a.id < b.id) :
    (applyUpdates orders upd).Pairwise (fun a b => a.id < b.id) := by
  unfold applyUpdates
  rw [List.pairwise_map]
  refine h.imp ?_
  intro a b hab
  rw [(applyUpdate_one upd a).1, (applyUpdate_one upd b).1]
  exact hab

/-! ### Final status of the incoming order -/

theorem orderOK_setStatus (t : Order) (st : OrderStatus)
    (h0 : 0 ≤ t.filled) (h1 : t.filled ≤ t.qty) (hq : 0 < t.qty)
    (hex : st = OrderStatus.EXECUTED ↔ t.filled = t.qty)
    (hnw : st = OrderStatus.NEW → t.filled = 0)
    (hty : match t.order_type with
      | .MARKET => t.price = none
      | .LIMIT => ∃ p, t.price = some p ∧ 0 < p) :
    OrderOK { t with status := st } :=
  ⟨h0, h1, hq, hex, hnw, hty⟩

theorem finalizeStatus_ok (ot : OrderType) (t : Order)
    (h0 : 0 ≤ t.filled) (h1 : t.filled ≤ t.qty) (hq : 0 < t.qty)
    (hnew : t.status = OrderStatus.NEW)
    (hty : match t.order_type with
      | .MARKET => t.price = none
      | .LIMIT => ∃ p, t.price = some p ∧ 0 < p) :
    OrderOK (finalizeStatus ot t) := by
  unfold finalizeStatus
  by_cases hfull : t.qty ≤ t.filled
  · rw [if_pos hfull]
    exact orderOK_setStatus t _ h0 h1 hq
      ⟨fun _ => le_antisymm h1 hfull, fun _ => rfl⟩
      (fun hc => absurd hc (by decide)) hty
  · rw [if_neg hfull]
    by_cases hpos : 0 < t.filled
    · rw [if_pos hpos]
      exact orderOK_setStatus t _ h0 h1 hq
        ⟨fun hc => absurd hc (by decide), fun hc => absurd (le_of_eq hc.symm) hfull⟩
        (fun hc => absurd hc (by decide)) hty
    · rw [if_neg hpos]
      by_cases hmkt : ot = OrderType.MARKET
      · rw [if_pos hmkt]
        exact orderOK_setStatus t _ h0 h1 hq
          ⟨fun hc => absurd hc (by decide), fun hc => absurd (le_of_eq hc.symm) hfull⟩
          (fun hc => absurd hc (by decide)) hty
      · rw [if_neg hmkt]
        refine ⟨h0, h1, hq, ?_, fun _ => by omega, hty⟩
        constructor
        · intro hc
          rw [hnew] at hc
          exact absurd hc (by decide)
        · intro hc
          exact absurd (le_of_eq hc.symm) hfull

theorem matchLoop_taker_fields (cs : List Order) (taker : Order) (remaining : Int)
    (bals : List BalanceRow) :
    (matchLoop taker remaining bals cs).taker.filled =
      taker.filled + (remaining - (matchLoop taker remaining bals cs).remaining) ∧
    (matchLoop taker remaining bals cs).taker.id = taker.id ∧
    (matchLoop taker remaining bals cs).taker.qty = taker.qty ∧
    (matchLoop taker remaining bals cs).taker.order_type = taker.order_type ∧
    (matchLoop taker remaining bals cs).taker.price = taker.price ∧
    (matchLoop taker remaining bals cs).taker.status = taker.status ∧
    (matchLoop taker remaining bals cs).taker.direction = taker.direction ∧
    (matchLoop taker remaining bals cs).taker.ticker = taker.ticker ∧
    (matchLoop taker remaining bals cs).taker.user_id = taker.user_id := by
  obtain ⟨ht, -, -⟩ := matchLoop_taker_shape cs taker remaining bals
  rw [ht]
  exact ⟨rfl, rfl, rfl, rfl, rfl, rfl, rfl, rfl, rfl⟩

theorem finalizeStatus_fields (ot : OrderType) (t : Order) :
    (finalizeStatus ot t).id = t.id ∧ (finalizeStatus ot t).filled = t.filled ∧
    (finalizeStatus ot t).qty = t.qty ∧ (finalizeStatus ot t).order_type = t.order_type ∧
    (finalizeStatus ot t).price = t.price ∧ (finalizeStatus ot t).ticker = t.ticker ∧
    (finalizeStatus ot t).user_id = t.user_id ∧ (finalizeStatus ot t).direction = t.direction := by
  unfold finalizeStatus
  split_ifs <;> exact ⟨rfl, rfl, rfl, rfl, rfl, rfl, rfl, rfl⟩

theorem processOrder_fields (s : EngineState) (rows : List Order) (order : Order) :
    (processOrder s rows order).orders =
      applyUpdates s.orders
          (matchLoop order order.qty s.balances (candidatesFor rows order)).makers ++
        [finalizeStatus order.order_type
          (matchLoop order order.qty s.balances (candidatesFor rows order)).taker] ∧
    (processOrder s rows order).balances =
      (matchLoop order order.qty s.balances (candidatesFor rows order)).balances ∧
    (processOrder s rows order).transactions =
      s.transactions ++
        (matchLoop order order.qty s.balances (candidatesFor rows order)).trades ∧
    (processOrder s rows order).nextTs = s.nextTs + 1 ∧
    (processOrder s rows order).instruments = s.instruments :=
  ⟨rfl, rfl, rfl, rfl, rfl⟩

theorem newOrderOf_valid (s : EngineState) (u : UserId) (body : OrderBody)
    (hv : validBody body) :
    0 < (newOrderOf s u body).qty ∧
    (match (newOrderOf s u body).order_type with
      | .MARKET => (newOrderOf s u body).price = none
      | .LIMIT => ∃ p, (newOrderOf s u body).price = some p ∧ 0 < p) := by
  cases body with
  | limit t d q p =>
    exact ⟨lt_of_lt_of_le one_pos hv.1, ⟨p, rfl, lt_of_lt_of_le one_pos hv.2⟩⟩
  | market t d q =>
    exact ⟨lt_of_lt_of_le one_pos hv, rfl⟩

theorem processOrder_wf (s : EngineState) (rows : List Order) (u : UserId) (body : OrderBody)
    (hv : validBody body) (hperm : List.Perm rows s.orders) (hwf : WF s) :
    WF (processOrder s rows (newOrderOf s u body)) := by
  obtain ⟨hok, hpw, hlt, htxs⟩ := hwf
  obtain ⟨ho, hb, ht, hn, -⟩ := processOrder_fields s rows (newOrderOf s u body)
  have hcsub : ∀ c ∈ candidatesFor rows (newOrderOf s u body), c ∈ s.orders :=
    fun c hc => hperm.subset (candidatesFor_sub rows (newOrderOf s u body) c hc)
  have hcok : ∀ c ∈ candidatesFor rows (newOrderOf s u body), OrderOK c :=
    fun c hc => hok c (hcsub c hc)
  have hmak := matchLoop_makers_shape (candidatesFor rows (newOrderOf s u body))
    (newOrderOf s u body) (newOrderOf s u body).qty s.balances
  obtain ⟨-, hremle, hrem0⟩ := matchLoop_taker_shape
    (candidatesFor rows (newOrderOf s u body))
    (newOrderOf s u body) (newOrderOf s u body).qty s.balances
  obtain ⟨hfill, hid, hqty, hotype, hprice, hstat, -, -, -⟩ := matchLoop_taker_fields
    (candidatesFor rows (newOrderOf s u body))
    (newOrderOf s u body) (newOrderOf s u body).qty s.balances
  obtain ⟨hvq, hvty⟩ := newOrderOf_valid s u body hv
  have hrem0' := hrem0 (le_of_lt hvq)
  have hfin : OrderOK (finalizeStatus (newOrderOf s u body).order_type
      (matchLoop (newOrderOf s u body) (newOrderOf s u body).qty s.balances
        (candidatesFor rows (newOrderOf s u body))).taker) := by
    apply finalizeStatus_ok
    · rw [hfill]
      have hzero : (newOrderOf s u body).filled = 0 := rfl
      omega
    · rw [hfill, hqty]
      have hzero : (newOrderOf s u body).filled = 0 := rfl
      omega
    · rw [hqty]; exact hvq
    · rw [hstat]; rfl
    · rw [hotype, hprice]; exact hvty
  have hfinid : (finalizeStatus (newOrderOf s u body).order_type
      (matchLoop (newOrderOf s u body) (newOrderOf s u body).qty s.balances
        (candidatesFor rows (newOrderOf s u body))).taker).id = s.nextTs := by
    rw [(finalizeStatus_fields _ _).1, hid]
    rfl
  have htype : ∀ o ∈ s.orders,
      ∃ o2 ∈ applyUpdates s.orders
        (matchLoop (newOrderOf s u body) (newOrderOf s u body).qty s.balances
          (candidatesFor rows (newOrderOf s u body))).makers,
        o2.id = o.id ∧ o2.order_type = o.order_type := by
    intro o hoo
    refine ⟨_, List.mem_map_of_mem _ hoo, (applyUpdate_one _ o).1, ?_⟩
    rcases (applyUpdate_one (matchLoop (newOrderOf s u body) (newOrderOf s u body).qty
        s.balances (candidatesFor rows (newOrderOf s u body))).makers o).2 with heq | hmem2
    · rw [heq]
    · obtain ⟨c, hc, hid2, -, -, -, -, -, hty2, -⟩ := hmak _ hmem2
      have hco : c = o := pairwise_lt_unique s.orders hpw c (hcsub c hc) o hoo
        (by rw [← hid2, (applyUpdate_one _ o).1])
      rw [hty2, hco]
  refine ⟨?_, ?_, ?_, ?_⟩
  · rw [ho]
    intro o' ho'
    rcases List.mem_append.1 ho' with hl | hr
    · obtain ⟨o, hoo, heq⟩ := List.mem_map.1 hl
      rcases (applyUpdate_one (matchLoop (newOrderOf s u body) (newOrderOf s u body).qty
          s.balances (candidatesFor rows (newOrderOf s u body))).makers o).2 with heq2 | hmem2
      · rw [← heq, heq2]
        exact hok o hoo
      · rw [← heq]
        obtain ⟨c, hc, -, -, -, -, -, -, -, hpres⟩ := hmak _ hmem2
        exact hpres (hcok c hc)
    · rw [List.mem_singleton.1 hr]
      exact hfin
  · rw [ho, List.pairwise_append]
    refine ⟨applyUpdates_pairwise _ _ hpw, by simp, ?_⟩
    intro a ha b hbm
    rw [List.mem_singleton.1 hbm, hfinid]
    obtain ⟨o, hoo, heq⟩ := List.mem_map.1 ha
    rw [← heq, (applyUpdate_one _ o).1]
    exact hlt o hoo
  · rw [ho, hn]
    intro o' ho'
    rcases List.mem_append.1 ho' with hl | hr
    · obtain ⟨o, hoo, heq⟩ := List.mem_map.1 hl
      rw [← heq, (applyUpdate_one _ o).1]
      have := hlt o hoo
      omega
    · rw [List.mem_singleton.1 hr, hfinid]
      omega
  · rw [ho, ht]
    intro tx htx2
    rcases List.mem_append.1 htx2 with hl | hr
    · obtain ⟨o, hoo, hoid, hoty⟩ := htxs tx hl
      obtain ⟨o2, ho2, ho2id, ho2ty⟩ := htype o hoo
      exact ⟨o2, List.mem_append_left _ ho2, by rw [ho2id, hoid], by rw [ho2ty, hoty]⟩
    · obtain ⟨c, hc, hcid, -⟩ := matchLoop_trades_maker _ _ _ _ tx hr
      obtain ⟨o2, ho2, ho2id, ho2ty⟩ := htype c (hcsub c hc)
      refine ⟨o2, List.mem_append_left _ ho2, by rw [ho2id, hcid], ?_⟩
      rw [ho2ty]
      exact candidatesFor_limit rows (newOrderOf s u body)
        (fun o ho => hok o (hperm.subset ho)) c hc

theorem cancel_map_one (oid : Nat) (u : UserId) (o : Order) :
    (if cancelPred oid u o then { o with status := OrderStatus.CANCELLED } else o).id = o.id ∧
    (if cancelPred oid u o then { o with status := OrderStatus.CANCELLED } else o).order_type =
      o.order_type := by
  split <;> exact ⟨rfl, rfl⟩

theorem cancel_wf (s : EngineState) (oid : Nat) (u : UserId) (hwf : WF s) :
    WF (cancel_order s oid u).2 := by
  obtain ⟨hok, hpw, hlt, htxs⟩ := hwf
  unfold cancel_order
  cases hf : s.orders.find? (fun o => decide (cancelPred oid u o)) with
  | none => exact ⟨hok, hpw, hlt, htxs⟩
  | some o0 =>
    simp only [cancelResult]
    refine ⟨?_, ?_, ?_, ?_⟩
    · intro o' ho'
      obtain ⟨o, ho, heq⟩ := List.mem_map.1 ho'
      obtain ⟨h0, h1, hq, hex, hnw, hty⟩ := hok o ho
      by_cases hP : cancelPred oid u o
      · rw [← heq, if_pos hP]
        refine orderOK_setStatus o _ h0 h1 hq ⟨fun hc => absurd hc (by decide), fun hc => ?_⟩
          (fun hc => absurd hc (by decide)) hty
        have hexec := hex.mpr hc
        rcases hP.2.2 with hst | hst <;> rw [hst] at hexec <;> cases hexec
      · rw [← heq, if_neg hP]
        exact ⟨h0, h1, hq, hex, hnw, hty⟩
    · rw [List.pairwise_map]
      refine hpw.imp ?_
      intro a b hab
      rw [(cancel_map_one oid u a).1, (cancel_map_one oid u b).1]
      exact hab
    · intro o' ho'
      obtain ⟨o, ho, heq⟩ := List.mem_map.1 ho'
      rw [← heq, (cancel_map_one oid u o).1]
      exact hlt o ho
    · intro tx htx2
      obtain ⟨o, ho, hoid, hoty⟩ := htxs tx htx2
      refine ⟨_, List.mem_map_of_mem _ ho, ?_, ?_⟩
      · rw [(cancel_map_one oid u o).1, hoid]
      · rw [(cancel_map_one oid u o).2, hoty]

theorem step_wf (s s' : EngineState) (h : Step s s') (hwf : WF s) : WF s' := by
  cases h with
  | submit a rows u2 b2 o2 hv hperm hc =>
    obtain ⟨-, -, hs⟩ := create_order_ok _ _ _ _ _ _ hc
    rw [hs]
    exact processOrder_wf _ _ _ _ hv hperm hwf
  | cancel a oid2 u2 b2 hc =>
    have h2 : s' = (cancel_order s a oid2).2 := by rw [hc]
    rw [h2]
    exact cancel_wf s a oid2 hwf

theorem reachable_wf (s0 s : EngineState) (h0 : initState s0) (hr : Reachable s0 s) :
    WF s := by
  have hwf0 : WF s0 := by
    obtain ⟨ho, ht, -⟩ := h0
    refine ⟨?_, ?_, ?_, ?_⟩ <;> simp [ho, ht]
  induction hr with
  | refl => exact hwf0
  | tail hab hbc ih => exact step_wf _ _ hbc ih

/-! ### Reachable example states -/

theorem wStep1 : Step wS0 wS1 :=
  Step.submit wS0 wS0.orders "B" wSell1 0 wS1 (by decide) (List.Perm.refl _) rfl

theorem wStep2 : Step wS1 wS2 :=
  Step.submit wS1 wS1.orders "B" wSell2 1 wS2 (by decide) (List.Perm.refl _) rfl

theorem wStep3 : Step wS2 wS3 :=
  Step.submit wS2 wS2.orders "A" wBuy 2 wS3 (by decide) (List.Perm.refl _) rfl

theorem wReach2 : Reachable wS0 wS2 :=
  Relation.ReflTransGen.tail (Relation.ReflTransGen.single wStep1) wStep2

theorem wReach3 : Reachable wS0 wS3 :=
  Relation.ReflTransGen.tail wReach2 wStep3

theorem vStep2 : Step wS1 vS2 :=
  Step.submit wS1 wS1.orders "B" vSell2 1 vS2 (by decide) (List.Perm.refl _) rfl

theorem vReach2 : Reachable wS0 vS2 :=
  Relation.ReflTransGen.tail (Relation.ReflTransGen.single wStep1) vStep2

theorem wInit : initState wS0 := by decide

/-- C8: in every committed state reachable from a fresh exchange, every order
row satisfies `0 ≤ filled ≤ qty`, and its status is `EXECUTED` exactly when
`filled = qty`. -/
theorem c8_order_invariants (s0 s : EngineState) (h0 : initState s0) (hr : Reachable s0 s) :
    ∀ o ∈ s.orders, 0 ≤ o.filled ∧ o.filled ≤ o.qty ∧
      (o.status = .EXECUTED ↔ o.filled = o.qty) := by
  intro o ho
  obtain ⟨hf0, hf1, -, hex, -, -⟩ := (reachable_wf s0 s h0 hr).1 o ho
  exact ⟨hf0, hf1, hex⟩

theorem c8_order_invariants_witness :
    (0:Int) ≤ (1:Int) ∧ (1:Int) ≤ (5:Int) ∧
      (OrderStatus.PARTIALLY_EXECUTED = OrderStatus.EXECUTED ↔ (1:Int) = (5:Int)) :=
  c8_order_invariants wS0 wS3 wInit wReach3
    { id := 1, user_id := "B", ticker := "AAPL", direction := .SELL, qty := 5,
      price := some 100, order_type := .LIMIT, status := .PARTIALLY_EXECUTED, filled := 1 }
    (by decide)

/-- C6: every trade emitted by a submit carries the price of its maker — a
resting order already present in the pre-state, never the incoming order —
for both LIMIT and MARKET incoming orders, under every scan order the
database may serve the matching query in. -/
theorem c6_maker_price_rule (s0 s : EngineState) (rows : List Order) (u : UserId)
    (body : OrderBody) (oid : Nat) (s' : EngineState)
    (h0 : initState s0) (hr : Reachable s0 s)
    (hperm : List.Perm rows s.orders)
    (hc : create_order s rows u body = (.ok oid, s')) :
    ∀ tx ∈ s'.transactions.drop s.transactions.length,
      ∃ m ∈ s.orders, m.id = tx.maker_id ∧ m.id ≠ oid ∧ tx.price = priceKey m := by
  obtain ⟨hadm, hoid, hs⟩ := create_order_ok _ _ _ _ _ _ hc
  obtain ⟨-, -, hlt, -⟩ := reachable_wf s0 s h0 hr
  subst hs
  obtain ⟨-, -, ht, -, -⟩ := processOrder_fields s rows (newOrderOf s u body)
  rw [ht, List.drop_left]
  intro tx htx
  obtain ⟨c, hc2, hcid, hcprice⟩ := matchLoop_trades_maker _ _ _ _ tx htx
  have hcmem := hperm.subset (candidatesFor_sub _ _ c hc2)
  refine ⟨c, hcmem, hcid, ?_, hcprice⟩
  have := hlt c hcmem
  omega

theorem c6_maker_price_witness :
    ∃ m ∈ wS2.orders, m.id = 0 ∧ m.id ≠ 2 ∧ (100:Int) = priceKey m := by
  have h := c6_maker_price_rule wS0 wS2 wS2.orders "A" wBuy 2 wS3 wInit wReach2
    (List.Perm.refl _) rfl
    { ticker := "AAPL", amount := 2, price := 100, buyer_id := "A", seller_id := "B",
      maker_id := 0 } (by decide)
  exact h

theorem optCrossB_some (d : Direction) (p q : Int) :
    optCrossB d (some p) (some q) = true ↔
      (match d with | .BUY => p ≤ q | .SELL => q ≤ p) := by
  cases d <;> simp [optCrossB]

/-- C3: the set of resting orders an incoming order can match against is
exactly the LIMIT orders of the opposite direction with status `NEW` or
`PARTIALLY_EXECUTED`; an incoming LIMIT additionally requires the resting
price to cross its own (ask ≤ buy price, bid ≥ sell price), while the
MARKET query carries no price condition at all.  The source's limit-order
query omits the `order_type` filter, but the SQL NULL price of a resting
MARKET order never satisfies the price comparison, so the sets coincide in
every reachable state — under every scan order `rows` of the table, since
membership in the query result does not depend on the row order. -/
theorem c3_matchable_set (s0 s : EngineState) (h0 : initState s0) (hr : Reachable s0 s)
    (order : Order) (rows : List Order) (hperm : List.Perm rows s.orders) :
    (∀ o, o ∈ marketCandidates rows order ↔
      o ∈ s.orders ∧ o.ticker = order.ticker ∧ o.direction = oppositeOf order.direction ∧
        o.order_type = .LIMIT ∧ (o.status = .NEW ∨ o.status = .PARTIALLY_EXECUTED)) ∧
    (∀ p0, order.price = some p0 →
      ∀ o, o ∈ limitCandidates rows order ↔
        o ∈ s.orders ∧ o.ticker = order.ticker ∧ o.direction = oppositeOf order.direction ∧
          o.order_type = .LIMIT ∧ (o.status = .NEW ∨ o.status = .PARTIALLY_EXECUTED) ∧
          ∃ p, o.price = some p ∧
            (match order.direction with | .BUY => p ≤ p0 | .SELL => p0 ≤ p)) := by
  have hok := (reachable_wf s0 s h0 hr).1
  constructor
  · intro o
    rw [mem_marketCandidates, hperm.mem_iff]
    constructor
    · rintro ⟨h1, h2, h3, h4, h5⟩
      exact ⟨h1, h2, h3, h5, h4⟩
    · rintro ⟨h1, h2, h3, h4, h5⟩
      exact ⟨h1, h2, h3, h5, h4⟩
  · intro p0 hp0 o
    rw [mem_limitCandidates, hperm.mem_iff]
    constructor
    · rintro ⟨h1, h2, h3, h4, h5⟩
      rw [hp0] at h5
      cases hpo : o.price with
      | none => rw [hpo, optCrossB_none_left] at h5; cases h5
      | some p =>
        rw [hpo, optCrossB_some] at h5
        have hty : o.order_type = .LIMIT := by
          cases hot : o.order_type with
          | LIMIT => rfl
          | MARKET =>
            have hnone := (hok o h1).2.2.2.2.2
            rw [hot] at hnone
            rw [hnone] at hpo
            cases hpo
        exact ⟨h1, h2, h3, hty, h4, p, rfl, h5⟩
    · rintro ⟨h1, h2, h3, h4, h5, p, hp, hcross⟩
      refine ⟨h1, h2, h3, h5, ?_⟩
      rw [hp, hp0, optCrossB_some]
      exact hcross

theorem c3_matchable_set_witness :
    { id := 0, user_id := "B", ticker := "AAPL", direction := Direction.SELL, qty := 2,
      price := some 100, order_type := OrderType.LIMIT, status := OrderStatus.NEW,
      filled := (0:Int) } ∈
      marketCandidates wS2.orders
        { id := 9, user_id := "A", ticker := "AAPL", direction := .BUY, qty := 1,
          price := none, order_type := .MARKET, status := .NEW, filled := 0 } :=
  ((c3_matchable_set wS0 wS2 wInit wReach2
    { id := 9, user_id := "A", ticker := "AAPL", direction := .BUY, qty := 1,
      price := none, order_type := .MARKET, status := .NEW, filled := 0 }
    wS2.orders (List.Perm.refl _)).1 _).mpr
    (by decide)

theorem taker_bounds (s : EngineState) (rows : List Order) (u : UserId) (body : OrderBody)
    (hv : validBody body) :
    0 ≤ (matchLoop (newOrderOf s u body) (newOrderOf s u body).qty s.balances
      (candidatesFor rows (newOrderOf s u body))).taker.filled ∧
    (matchLoop (newOrderOf s u body) (newOrderOf s u body).qty s.balances
      (candidatesFor rows (newOrderOf s u body))).taker.filled ≤
      (matchLoop (newOrderOf s u body) (newOrderOf s u body).qty s.balances
        (candidatesFor rows (newOrderOf s u body))).taker.qty := by
  obtain ⟨hfill, -, hqty, -⟩ := matchLoop_taker_fields
    (candidatesFor rows (newOrderOf s u body))
    (newOrderOf s u body) (newOrderOf s u body).qty s.balances
  obtain ⟨-, hremle, hrem0⟩ := matchLoop_taker_shape
    (candidatesFor rows (newOrderOf s u body))
    (newOrderOf s u body) (newOrderOf s u body).qty s.balances
  obtain ⟨hvq, -⟩ := newOrderOf_valid s u body hv
  have hrem0' := hrem0 (le_of_lt hvq)
  have hzero : (newOrderOf s u body).filled = 0 := rfl
  constructor
  · rw [hfill]; omega
  · rw [hfill, hqty]; omega

theorem market_status_char (t : Order) (h0 : 0 ≤ t.filled) (h1 : t.filled ≤ t.qty)
    (hq : 0 < t.qty) :
    ((finalizeStatus .MARKET t).status = .EXECUTED ↔ t.filled = t.qty) ∧
    ((finalizeStatus .MARKET t).status = .PARTIALLY_EXECUTED ↔
      0 < t.filled ∧ t.filled < t.qty) ∧
    ((finalizeStatus .MARKET t).status = .CANCELLED ↔ t.filled = 0) := by
  unfold finalizeStatus
  by_cases hfull : t.qty ≤ t.filled
  · rw [if_pos hfull]
    exact ⟨⟨fun _ => by omega, fun _ => rfl⟩,
      ⟨fun hcon => by simp at hcon, fun hcon => absurd hfull (by omega)⟩,
      ⟨fun hcon => by simp at hcon, fun hcon => absurd hfull (by omega)⟩⟩
  · rw [if_neg hfull]
    by_cases hpos : 0 < t.filled
    · rw [if_pos hpos]
      exact ⟨⟨fun hcon => by simp at hcon,
          fun hcon => absurd (le_of_eq hcon.symm) hfull⟩,
        ⟨fun _ => by omega, fun _ => rfl⟩,
        ⟨fun hcon => by simp at hcon, fun hcon => absurd hpos (by omega)⟩⟩
    · rw [if_neg hpos, if_pos rfl]
      exact ⟨⟨fun hcon => by simp at hcon,
          fun hcon => absurd (le_of_eq hcon.symm) hfull⟩,
        ⟨fun hcon => by simp at hcon, fun hcon => absurd hpos (by omega)⟩,
        ⟨fun _ => by omega, fun _ => rfl⟩⟩

/-- C5: a MARKET order never rests.  After its single matching pass the new
order row ends `EXECUTED` iff fully filled, `PARTIALLY_EXECUTED` iff
partially filled (the remainder is discarded), and `CANCELLED` iff nothing
filled — in particular a MARKET order against an empty opposite book ends
`CANCELLED` with no trade and no balance change.  The remainder is never
matched later: in every reachable state every recorded trade's maker is a
LIMIT order of the book, so no MARKET order is ever matched by a later
incoming order. -/
theorem c5_market_never_rests (s0 s : EngineState) (h0 : initState s0)
    (hr : Reachable s0 s) :
    (∀ (u : UserId) (tk : Ticker) (d : Direction) (q : Int) (rows : List Order)
        (oid : Nat) (s' : EngineState),
      validBody (.market tk d q) →
      List.Perm rows s.orders →
      create_order s rows u (.market tk d q) = (.ok oid, s') →
      ∀ o' ∈ s'.orders, o'.id = oid →
        (o'.status = .EXECUTED ↔ o'.filled = o'.qty) ∧
        (o'.status = .PARTIALLY_EXECUTED ↔ 0 < o'.filled ∧ o'.filled < o'.qty) ∧
        (o'.status = .CANCELLED ↔ o'.filled = 0) ∧
        ((∀ o ∈ s.orders, ¬ (o.ticker = tk ∧ o.direction = oppositeOf d ∧
            (o.status = .NEW ∨ o.status = .PARTIALLY_EXECUTED) ∧ o.order_type = .LIMIT)) →
          o'.status = .CANCELLED ∧ s'.transactions = s.transactions ∧
            s'.balances = s.balances)) ∧
    (∀ tx ∈ s.transactions, ∃ o ∈ s.orders, o.id = tx.maker_id ∧ o.order_type = .LIMIT) := by
  obtain ⟨hok, hpw, hlt, htxs⟩ := reachable_wf s0 s h0 hr
  refine ⟨?_, htxs⟩
  intro u tk d q rows oid s' hv hperm hc o' ho' hid'
  obtain ⟨hadm, hoid, hs⟩ := create_order_ok _ _ _ _ _ _ hc
  subst hs
  obtain ⟨ho, hb, ht, -, -⟩ := processOrder_fields s rows (newOrderOf s u (.market tk d q))
  rw [ho] at ho'
  have hfin' : o' = finalizeStatus (newOrderOf s u (.market tk d q)).order_type
      (matchLoop (newOrderOf s u (.market tk d q)) (newOrderOf s u (.market tk d q)).qty
        s.balances (candidatesFor rows (newOrderOf s u (.market tk d q)))).taker := by
    rcases List.mem_append.1 ho' with hl | hrr
    · exfalso
      obtain ⟨o, hoo, heq⟩ := List.mem_map.1 hl
      have h1 := (applyUpdate_one (matchLoop (newOrderOf s u (.market tk d q))
        (newOrderOf s u (.market tk d q)).qty s.balances
        (candidatesFor rows (newOrderOf s u (.market tk d q)))).makers o).1
      rw [heq] at h1
      have h2 := hlt o hoo
      rw [hoid] at hid'
      omega
    · exact List.mem_singleton.1 hrr
  subst hfin'
  have hmkt : (newOrderOf s u (.market tk d q)).order_type = OrderType.MARKET := rfl
  obtain ⟨htb0, htb1⟩ := taker_bounds s rows u (.market tk d q) hv
  obtain ⟨-, -, hqty, -⟩ := matchLoop_taker_fields
    (candidatesFor rows (newOrderOf s u (.market tk d q)))
    (newOrderOf s u (.market tk d q)) (newOrderOf s u (.market tk d q)).qty s.balances
  have hq1 : (1:Int) ≤ q := hv
  have hq0 : 0 < (matchLoop (newOrderOf s u (.market tk d q))
      (newOrderOf s u (.market tk d q)).qty s.balances
      (candidatesFor rows (newOrderOf s u (.market tk d q)))).taker.qty := by
    rw [hqty]
    show (0:Int) < q
    omega
  obtain ⟨hchar1, hchar2, hchar3⟩ := market_status_char _ htb0 htb1 hq0
  obtain ⟨-, hff, hfq, -⟩ := finalizeStatus_fields OrderType.MARKET
    (matchLoop (newOrderOf s u (.market tk d q)) (newOrderOf s u (.market tk d q)).qty
      s.balances (candidatesFor rows (newOrderOf s u (.market tk d q)))).taker
  rw [hmkt, hff, hfq]
  refine ⟨hchar1, hchar2, hchar3, ?_⟩
  intro hempty
  have hcand : candidatesFor rows (newOrderOf s u (.market tk d q)) = [] := by
    rw [List.eq_nil_iff_forall_not_mem]
    intro c hcm
    unfold candidatesFor at hcm
    rw [if_pos hmkt] at hcm
    obtain ⟨h1, h2, h3, h4, h5⟩ := (mem_marketCandidates _ _ _).1 hcm
    exact hempty c (hperm.subset h1) ⟨h2, h3, h4, h5⟩
  rw [ht, hb, hcand, matchLoop_nil]
  refine ⟨?_, ?_, rfl⟩
  · have hn1 : ¬ (newOrderOf s u (OrderBody.market tk d q)).qty ≤
        (newOrderOf s u (OrderBody.market tk d q)).filled := by
      show ¬ (q:Int) ≤ 0
      omega
    have hn2 : ¬ (0:Int) < (newOrderOf s u (OrderBody.market tk d q)).filled := by
      show ¬ (0:Int) < 0
      omega
    show (finalizeStatus OrderType.MARKET
      (newOrderOf s u (OrderBody.market tk d q))).status = OrderStatus.CANCELLED
    unfold finalizeStatus
    rw [if_neg hn1, if_neg hn2, if_pos rfl]
  · simp

theorem c5_market_witness :
    (OrderStatus.EXECUTED = OrderStatus.EXECUTED ↔ (1:Int) = (1:Int)) :=
  (((c5_market_never_rests wS0 wS2 wInit wReach2).1 "A" "AAPL" .BUY 1 wS2.orders 2 wS4
    (by decide) (List.Perm.refl _) rfl
    { id := 2, user_id := "A", ticker := "AAPL", direction := .BUY, qty := 1,
      price := none, order_type := .MARKET, status := .EXECUTED, filled := 1 }
    (by decide) rfl).1)

/-- C2 (counterexample): the claim's price-TIME priority fails on the code.
The matching queries order only by price (`ORDER BY price` with no secondary
sort key, trading_engine.py lines 76-77, 135, 143), so the database is free
to return equal-priced resting orders in any relative order.  Stating the
claim over every admissible scan order of the book: from two resting sells
at the same price 100 (ids 0 and 1, state `wS2`), a BUY 3 matched while the
database serves the rows in reverse order fills the LATER sell (id 1)
first, and the earlier sell (id 0) — equal price, earlier timestamp, hence
better by price-time priority than the matched maker — still has its full
quantity unfilled.  The equal-price/earlier-timestamp half of the claim is
therefore not a property of the program. -/
theorem c2_fifo_counterexample :
    ¬ (∀ (s0 s : EngineState) (rows : List Order) (u : UserId) (body : OrderBody)
          (oid : Nat) (s' : EngineState),
        initState s0 → Reachable s0 s → List.Perm rows s.orders →
        create_order s rows u body = (.ok oid, s') →
        ∀ tx ∈ s'.transactions.drop s.transactions.length,
        ∀ m ∈ s.orders, m.id = tx.maker_id →
        ∀ c ∈ s.orders,
          c.ticker = body.ticker → c.direction = oppositeOf body.direction →
          c.order_type = .LIMIT → (c.status = .NEW ∨ c.status = .PARTIALLY_EXECUTED) →
          priOrd body.direction c m →
          ∀ c' ∈ s'.orders, c'.id = c.id → c'.qty ≤ c'.filled) := by
  intro h
  have hperm : List.Perm wRevRows wS2.orders := by
    have he : wS2.orders = [wOrd0, wOrd1] := by decide
    rw [he]
    show List.Perm [wOrd1, wOrd0] [wOrd0, wOrd1]
    exact List.Perm.swap _ _ _
  have happ := h wS0 wS2 wRevRows "A" wBuy 2 wS3r wInit wReach2 hperm rfl
    { ticker := "AAPL", amount := 3, price := 100, buyer_id := "A", seller_id := "B",
      maker_id := 1 } (by decide)
    wOrd1 (by decide) rfl
    wOrd0 (by decide) rfl rfl rfl (Or.inl rfl)
    (Or.inr ⟨rfl, by decide⟩)
    wOrd0 (by decide) rfl
  exact absurd happ (by decide)

/-- C2 (amended): matching follows price priority under every scan order the
database may serve.  For every trade emitted by an accepted submission, any
resting opposite-side LIMIT order of the pre-state with a strictly better
price than the matched maker ends the pass fully filled, so it cannot still
have had remaining quantity at the moment of the match.  Within one price
level no time priority is guaranteed: `ORDER BY price` has no secondary
sort key, so the relative order in which equal-priced resting orders are
matched is unspecified. -/
theorem c2_price_priority (s0 s : EngineState) (rows : List Order) (u : UserId)
    (body : OrderBody) (oid : Nat) (s' : EngineState)
    (h0 : initState s0) (hr : Reachable s0 s)
    (hperm : List.Perm rows s.orders)
    (hc : create_order s rows u body = (.ok oid, s'))
    (tx : Transaction) (htx : tx ∈ s'.transactions.drop s.transactions.length)
    (m : Order) (hm : m ∈ s.orders) (hmid : m.id = tx.maker_id)
    (c : Order) (hcmem : c ∈ s.orders)
    (hticker : c.ticker = body.ticker)
    (hdir : c.direction = oppositeOf body.direction)
    (htype : c.order_type = .LIMIT)
    (hrest : c.status = .NEW ∨ c.status = .PARTIALLY_EXECUTED)
    (hbetter : priceLt body.direction c m) :
    ∀ c' ∈ s'.orders, c'.id = c.id → c'.qty ≤ c'.filled := by
  obtain ⟨hadm, hoid, hs⟩ := create_order_ok _ _ _ _ _ _ hc
  obtain ⟨hok, hpw, hlt, -⟩ := reachable_wf s0 s h0 hr
  subst hs
  obtain ⟨ho, -, ht, -, -⟩ := processOrder_fields s rows (newOrderOf s u body)
  rw [ht, List.drop_left] at htx
  obtain ⟨cm, hcm, hcmid, -⟩ := matchLoop_trades_maker _ _ _ _ tx htx
  have hmeq : m = cm := pairwise_lt_unique s.orders hpw m hm cm
    (hperm.subset (candidatesFor_sub _ _ cm hcm)) (by rw [hmid, hcmid])
  have hcc : c ∈ candidatesFor rows (newOrderOf s u body) := by
    have hcrows : c ∈ rows := hperm.mem_iff.mpr hcmem
    unfold candidatesFor
    by_cases hmk : (newOrderOf s u body).order_type = OrderType.MARKET
    · rw [if_pos hmk, mem_marketCandidates]
      exact ⟨hcrows, hticker, hdir, hrest, htype⟩
    · rw [if_neg hmk, mem_limitCandidates]
      refine ⟨hcrows, hticker, hdir, hrest, ?_⟩
      have hcm' : cm ∈ limitCandidates rows (newOrderOf s u body) := by
        unfold candidatesFor at hcm
        rw [if_neg hmk] at hcm
        exact hcm
      obtain ⟨-, -, -, -, hcrossm⟩ := (mem_limitCandidates _ _ _).1 hcm'
      obtain ⟨-, -, -, -, -, htyc⟩ := hok c hcmem
      rw [htype] at htyc
      obtain ⟨pc, hpc, -⟩ := htyc
      cases hpm : cm.price with
      | none => rw [hpm, optCrossB_none_left] at hcrossm; cases hcrossm
      | some pm =>
        cases body with
        | market t2 d2 q2 => exact absurd rfl hmk
        | limit t2 d2 q2 p2 =>
          rw [hpc]
          rw [hpm] at hcrossm
          have hkc : priceKey c = pc := by rw [priceKey, hpc]; rfl
          have hkm : priceKey m = pm := by rw [priceKey, hmeq, hpm]; rfl
          cases d2 with
          | BUY =>
            have hple : pm ≤ p2 := (optCrossB_some Direction.BUY pm p2).1 hcrossm
            have hclt : pc < pm := by
              have hx : priceKey c < priceKey m := hbetter
              rw [hkc, hkm] at hx
              exact hx
            show optCrossB Direction.BUY (some pc) (some p2) = true
            rw [optCrossB_some]
            show pc ≤ p2
            omega
          | SELL =>
            have hple : p2 ≤ pm := (optCrossB_some Direction.SELL pm p2).1 hcrossm
            have hclt : pm < pc := by
              have hx : priceKey m < priceKey c := hbetter
              rw [hkc, hkm] at hx
              exact hx
            show optCrossB Direction.SELL (some pc) (some p2) = true
            rw [optCrossB_some]
            show p2 ≤ pc
            omega
  have hpairs := candidatesFor_priceSorted rows (newOrderOf s u body)
  have hidsc := candidatesFor_ids rows (newOrderOf s u body)
    (rows_ids_distinct rows s.orders hperm hpw)
  have hmc : m ∈ candidatesFor rows (newOrderOf s u body) := by
    rw [hmeq]; exact hcm
  have hprio := matchLoop_priority (newOrderOf s u body).direction
    (candidatesFor rows (newOrderOf s u body))
    (newOrderOf s u body) (newOrderOf s u body).qty s.balances hpairs hidsc
    tx htx m hmc hmid c hcc hbetter
  intro c' hc' hcid
  rw [ho] at hc'
  rcases List.mem_append.1 hc' with hl | hrr
  · obtain ⟨o, hoo, heq⟩ := List.mem_map.1 hl
    have h1 := (applyUpdate_one (matchLoop (newOrderOf s u body) (newOrderOf s u body).qty
      s.balances (candidatesFor rows (newOrderOf s u body))).makers o).1
    rw [heq] at h1
    have hoid2 : o.id = c.id := h1.symm.trans hcid
    have hoc : o = c := pairwise_lt_unique s.orders hpw o hoo c hcmem hoid2
    have hexists : ∃ u2 ∈ (matchLoop (newOrderOf s u body) (newOrderOf s u body).qty
        s.balances (candidatesFor rows (newOrderOf s u body))).makers, u2.id = o.id := by
      obtain ⟨u2, hu2, hu2id⟩ := matchLoop_makers_cover _ _ _ _ c hcc
      exact ⟨u2, hu2, by rw [hu2id, hoc]⟩
    have hcmakers : c' ∈ (matchLoop (newOrderOf s u body) (newOrderOf s u body).qty
        s.balances (candidatesFor rows (newOrderOf s u body))).makers := by
      rw [← heq]
      exact applyUpdate_found _ o hexists
    exact hprio c' hcmakers hcid
  · exfalso
    have htid := (matchLoop_taker_fields (candidatesFor rows (newOrderOf s u body))
      (newOrderOf s u body) (newOrderOf s u body).qty s.balances).2.1
    have hfid : c'.id = s.nextTs := by
      rw [List.mem_singleton.1 hrr, (finalizeStatus_fields _ _).1, htid]
      rfl
    have := hlt c hcmem
    rw [hcid] at hfid
    omega

theorem c2_price_priority_witness :
    ({ id := 0, user_id := "B", ticker := "AAPL", direction := Direction.SELL, qty := 2,
       price := some 100, order_type := OrderType.LIMIT, status := OrderStatus.EXECUTED,
       filled := 2 } : Order).qty ≤
      ({ id := 0, user_id := "B", ticker := "AAPL", direction := Direction.SELL, qty := 2,
         price := some 100, order_type := OrderType.LIMIT, status := OrderStatus.EXECUTED,
         filled := 2 } : Order).filled :=
  c2_price_priority wS0 vS2 vS2.orders "A" vBuy 2 vS3 wInit vReach2 (List.Perm.refl _) rfl
    { ticker := "AAPL", amount := 1, price := 101, buyer_id := "A", seller_id := "B",
      maker_id := 1 } (by decide)
    { id := 1, user_id := "B", ticker := "AAPL", direction := .SELL, qty := 5,
      price := some 101, order_type := .LIMIT, status := .NEW, filled := 0 }
    (by decide) rfl
    wOrd0 (by decide) rfl rfl rfl (Or.inl rfl)
    (by show (100:Int) < (101:Int); decide)
    { id := 0, user_id := "B", ticker := "AAPL", direction := Direction.SELL, qty := 2,
      price := some 100, order_type := OrderType.LIMIT, status := OrderStatus.EXECUTED,
      filled := 2 }
    (by decide) rfl
